import Mathlib

/-!
Verification of the predictive-text engine consisting of three JavaScript
modules: a weighted bounded edit distance (`src/levenshtein.js`), a compressed
prefix tree (the `Trie` class), and an n-gram statistical language model
(`src/ngram.js`, class `Ngram`).

JavaScript strings are embedded as `List Char`.  JavaScript objects (the trie
nodes, which carry both single/multi-character edge keys and the metadata keys
"flush" and "index" as ordinary enumerable properties) are embedded as `JVal`,
an ordered association structure mirroring JS property insertion order for
non-integer string keys.  Mutation is rendered as state passing; aliasing
effects of the in-place `compress` are analysed in the comment preceding
`Trie.compress` below.
-/

namespace Models


/-! ## Basic string helpers (JS semantics on `List Char`) -/


/-- JS `String.prototype.toLowerCase` restricted to ASCII letters (all inputs
considered in this development are ASCII). -/

def lowerChar (c : Char) : Char :=
  if 'A' ≤ c ∧ c ≤ 'Z' then Char.ofNat (c.toNat + 32) else c

def lowerStr (s : List Char) : List Char := s.map lowerChar

/-- JS `a.startsWith(b)` is `pfxB b a`: the first argument is the candidate
leading segment. -/

def pfxB : List Char → List Char → Bool
  | [], _ => true
  | _ :: _, [] => false
  | a :: as, b :: bs => a = b && pfxB as bs

/-- JS `a.endsWith(b)` is `sfxB b a`. -/

def sfxB (a b : List Char) : Bool := pfxB a.reverse b.reverse

/-- JS whitespace class `\s` (ASCII part; inputs here only use plain spaces). -/

def isWs (c : Char) : Bool :=
  c = ' ' || c = '\t' || c = '\n' || c = '\r' || c = '\x0b' || c = '\x0c'

mutual
/-- JS `text.split(/\s+/)`: cut at maximal whitespace runs, keeping the (empty)
piece before a leading run and after a trailing run; `""` yields `[""]`.
`splitWsSkip` consumes the rest of a whitespace run. -/
def splitWsGo : List Char → List Char → List (List Char)
  | [], cur => [cur.reverse]
  | c :: cs, cur =>
      if isWs c then cur.reverse :: splitWsSkip cs
      else splitWsGo cs (c :: cur)
def splitWsSkip : List Char → List (List Char)
  | [] => [[]]
  | c :: cs => if isWs c then splitWsSkip cs else splitWsGo cs [c]
end


def splitWs (s : List Char) : List (List Char) := splitWsGo s []

/-- JS `str.split(' ')` (single-character separator, keeps empty pieces). -/

def splitOnSpace : List Char → List Char → List (List Char)
  | [], cur => [cur.reverse]
  | c :: cs, cur =>
      if c = ' ' then cur.reverse :: splitOnSpace cs []
      else splitOnSpace cs (c :: cur)

/-- JS `arr.join(' ')`. -/

def joinSpace : List (List Char) → List Char
  | [] => []
  | [w] => w
  | w :: ws => w ++ ' ' :: joinSpace ws

/-! ## BoundedEditDistance: `src/levenshtein.js` -/


def revisionScore : Nat := 1

def additionScore : Nat := 1

def deletionScore : Nat := 2

/-- Inner loop of the DP (`for (let j = 1; j <= target.length; j++)`):
`curr[j] = min(prev[j-1] + revCond, curr[j-1] + deletionScore,
prev[j] + additionScore)`.  Arguments: remaining target characters,
`prest` = `prevRow` from position `j` on, `diag` = `prevRow[j-1]`,
`left` = `currRow[j-1]`. -/

def levRowGo (sc : Char) : List Char → List Nat → Nat → Nat → List Nat
  | [], _, _, _ => []
  | tc :: ts, prest, diag, left =>
      let up := prest.headD 0
      let subCost := if sc ≠ tc then revisionScore else 0
      let v := min (min (diag + subCost) (left + deletionScore)) (up + additionScore)
      v :: levRowGo sc ts prest.tail up v

/-- Outer loop (`for (let i = 1; i <= source.length; i++)`), with
`currRow[0] = i * additionScore` and the row swap at the end of each pass. -/

def levRows (target : List Char) : List Char → Nat → List Nat → List Nat
  | [], _, prevRow => prevRow
  | sc :: ss, i, prevRow =>
      let c0 := i * additionScore
      let curr := c0 :: levRowGo sc target (prevRow.drop 1) (prevRow.headD 0) c0
      levRows target ss (i + 1) curr

/-- `levenshtein(source, target, maximumDistance)` from `src/levenshtein.js`:
early return `maximumDistance + 1` when the length difference exceeds the
bound, otherwise the two-row DP, returning `prevRow[target.length]`. -/

def levenshtein (source target : List Char) (maximumDistance : Nat) : Nat :=
  if Nat.dist source.length target.length > maximumDistance then
    maximumDistance + 1
  else
    (levRows target source 1 (List.range (target.length + 1))).getD target.length 0

/-! ## JS object values

Trie nodes are plain JS objects.  `insert` stores the word-end marker and the
insertion index as ordinary enumerable properties `flush` and `index`, so they
appear in `Object.keys` / `Object.entries` / `for..in` alongside edge keys.
`JVal` embeds such values: an object with its properties in insertion order
(JS preserves insertion order for non-integer string keys; none of the claims
below depends on the reordering JS applies to integer-like keys), or the
primitives `true` / numbers that the metadata properties hold. -/


mutual
inductive JVal : Type where
  | obj (es : Entries)
  | bl (b : Bool)
  | nm (n : Nat)
  deriving DecidableEq
inductive Entries : Type where
  | nil
  | cons (k : List Char) (v : JVal) (rest : Entries)
  deriving DecidableEq
end


def flushK : List Char := "flush".data

def indexK : List Char := "index".data

/-- Property read `obj[key]` on an entry list (keys are unique: `setK` is the
only operation that adds entries and it replaces an existing key in place). -/

def entLookup : Entries → List Char → Option JVal
  | .nil, _ => none
  | .cons k v rest, key => if k = key then some v else entLookup rest key

/-- JS property write `node[key] = v`: replace in place when the key exists,
otherwise append (new keys go to the end of the insertion order). -/

def setK : Entries → List Char → JVal → Entries
  | .nil, key, v => .cons key v .nil
  | .cons k w rest, key, v =>
      if k = key then .cons k v rest else .cons k w (setK rest key v)

/-- JS `delete node[key]`. -/

def eraseK : Entries → List Char → Entries
  | .nil, _ => .nil
  | .cons k w rest, key => if k = key then rest else .cons k w (eraseK rest key)

/-- JS property read on an arbitrary value: reading a property of a primitive
yields `undefined` (`none`). -/

def getProp (v : JVal) (key : List Char) : Option JVal :=
  match v with
  | .obj es => entLookup es key
  | _ => none

/-- JS truthiness of a possibly-`undefined` value. -/

def truthy : Option JVal → Bool
  | none => false
  | some (.bl b) => b
  | some (.nm n) => n ≠ 0
  | some (.obj _) => true

/-- `node.flush` as a boolean test (`!!node.flush` / `childNode.flush`). -/

def flushy (v : JVal) : Bool := truthy (getProp v flushK)

def jsTruthyVal : JVal → Bool
  | .obj _ => true
  | .bl b => b
  | .nm n => n ≠ 0

/-- `node.index`, defaulting to 0; insert always sets `flush` and `index`
together, so a word-end node built by this code always carries a number. -/

def getIdx (v : JVal) : Nat :=
  match getProp v indexK with
  | some (.nm n) => n
  | _ => 0

/-! ## Trie.insert -/


/-- The walk of `insert(word)`: `node = node[character] ??= {}` for each
character, then `node.flush = true; node.index = ++this.index`.  The fallback
arm models the unreachable case of walking into a primitive (single-character
edge keys never collide with the five-character metadata keys, so every value
reached by a single-character key is an object or absent). -/

def insertGo : List Char → JVal → Nat → JVal
  | [], .obj es, i => .obj (setK (setK es flushK (.bl true)) indexK (.nm i))
  | c :: cs, .obj es, i =>
      let child := (entLookup es [c]).getD (.obj .nil)
      .obj (setK es [c] (insertGo cs child i))
  | _, .bl b, _ => .bl b
  | _, .nm n, _ => .nm n

/-- Insert the words of the constructor input in order; the insertion index is
pre-incremented, so the first word gets index 1. -/

def buildGo : List (List Char) → JVal → Nat → JVal
  | [], v, _ => v
  | w :: ws, v, i => buildGo ws (insertGo (lowerStr w) v (i + 1)) (i + 1)

/-! ## Trie.compress

The JS `compress` mutates nodes in place and, after hoisting a grandchild
(`node[key + keys[0]] = childNode[keys[0]]; delete node[key]`), recurses into
the now-detached `childNode` rather than into the node that took its place.
Because the constructor-built node graph is a tree with no sharing, each node
object is mutated only by the single `compress` call receiving it, and that
call runs before the node has been touched, over a snapshot
(`Object.entries`) of its original entries.  Unfolding this gives the
observable result computed below: for each original entry `(k, u)` in order —
a primitive or word-end (`flush`) child is left alone and not recursed into; a
non-word-end object child with exactly one key `k1` is replaced by the entry
`(k ++ k1, g')` appended at the end of the key order, where `g'` is the
grandchild, recursively compressed unless it is a primitive or a word-end
node (the detached child's own re-keying is unobservable, but its recursion
into the grandchild is not); any other object child is compressed in place.
Merged keys have length ≥ 2 and single-character original keys are pairwise
distinct, so on constructor-built tries a hoisted key never collides with an
existing key. -/

mutual
def compress : JVal → JVal
  | .obj es => .obj (compressGo es es)
  | v => v
termination_by structural v => v

def compressGo : Entries → Entries → Entries
  | .nil, cur => cur
  | .cons _ (.bl _) rest, cur => compressGo rest cur
  | .cons _ (.nm _) rest, cur => compressGo rest cur
  | .cons k (.obj .nil) rest, cur =>
      if truthy (entLookup (.nil : Entries) flushK) then compressGo rest cur
      else compressGo rest (setK cur k (compress (.obj .nil)))
  | .cons k (.obj (.cons k1 (.obj ges) .nil)) rest, cur =>
      if truthy (entLookup (.cons k1 (.obj ges) .nil) flushK) then compressGo rest cur
      else
        let g' := if truthy (entLookup ges flushK) then JVal.obj ges
          else compress (.obj ges)
        compressGo rest (eraseK (setK cur (k ++ k1) g') k)
  | .cons k (.obj (.cons k1 (.bl b) .nil)) rest, cur =>
      if truthy (entLookup (.cons k1 (.bl b) .nil) flushK) then compressGo rest cur
      else compressGo rest (eraseK (setK cur (k ++ k1) (.bl b)) k)
  | .cons k (.obj (.cons k1 (.nm n) .nil)) rest, cur =>
      if truthy (entLookup (.cons k1 (.nm n) .nil) flushK) then compressGo rest cur
      else compressGo rest (eraseK (setK cur (k ++ k1) (.nm n)) k)
  | .cons k (.obj (.cons k1 g (.cons k2 g2 tl))) rest, cur =>
      if truthy (entLookup (.cons k1 g (.cons k2 g2 tl)) flushK) then compressGo rest cur
      else
        compressGo rest
          (setK cur k (compress (.obj (.cons k1 g (.cons k2 g2 tl)))))
termination_by structural sn _ => sn
end


/-- The `Trie` constructor on a word-array input: insert every word (lowercased)
and compress once. -/

def trieNew (input : List (List Char)) : JVal :=
  compress (buildGo input (.obj .nil) 0)

/-! ## Trie.findWords and Trie.contains -/


mutual
/-- `findWords(word, maxWord, node, list)`: stop when the list is full, push
`word` at word-end nodes, then recurse into every key — including the
metadata keys, whose primitive values contribute nothing. -/
def findWords (v : JVal) (word : List Char) (maxWord : Nat)
    (list : List (List Char)) : List (List Char) :=
  if maxWord ≤ list.length then list
  else
    let list1 := if flushy v then list ++ [word] else list
    match v with
    | .obj es => findWordsGo es word maxWord list1
    | _ => list1

def findWordsGo : Entries → List Char → Nat → List (List Char) → List (List Char)
  | .nil, _, _, list => list
  | .cons k u rest, word, maxWord, list =>
      findWordsGo rest word maxWord (findWords u (word ++ k) maxWord list)
end


/-- First key in insertion order that is an exact leading segment of the
remaining word (`remainingWord.substring(0, keyLength) === key`).  The
`key === this.flush` guard in the source never skips anything, because
`this.flush` is `null` and keys are strings. -/

def findFirstPfxKey : Entries → List Char → Option (List Char × JVal)
  | .nil, _ => none
  | .cons k v rest, rem => if pfxB k rem then some (k, v) else findFirstPfxKey rest rem

/-- The `while` loop of `contains`: consume one full edge per iteration; when
no edge matches, fail; when the word is exhausted, test `!!node.flush`.  An
empty edge key would make the JS loop spin forever; no constructor-built trie
has one, and the model returns `false` there.  The fuel argument only makes
the recursion structural: every iteration shortens the remaining word, so
starting the fuel at the word's length, the fuel-exhaustion arm is never
reached. -/

def containsGo : Nat → JVal → List Char → Bool
  | _, v, [] => flushy v
  | 0, _, _ :: _ => false
  | fuel + 1, v, c0 :: crest =>
      if jsTruthyVal v then
        match v with
        | .obj es =>
            match findFirstPfxKey es (c0 :: crest) with
            | some ([], _) => false
            | some (kc :: ks, child) =>
                containsGo fuel child ((c0 :: crest).drop (kc :: ks).length)
            | none => false
        | _ => false
      else false

def Trie.contains (model : JVal) (word : List Char) : Bool :=
  containsGo (lowerStr word).length model (lowerStr word)

/-! ## Trie.complete -/


/-- First key matching `key.startsWith(segment) || segment.startsWith(key)`,
in insertion order.  The metadata keys participate: with segment `"f"`, the
key `"flush"` of a word-end node matches. -/

def findMatchKey : Entries → List Char → Option (List Char × JVal)
  | .nil, _ => none
  | .cons k v rest, seg =>
      if pfxB seg k || pfxB k seg then some (k, v) else findMatchKey rest seg

/-- The descent loop of `complete`: `acc` is `matchedPrefix`; `rem` is
`prefixLower.substring(idx)`.  `Object.keys` of a primitive is empty, so a
primitive node with input remaining yields no match.  As in `containsGo`, an
empty edge key would not terminate in JS and is mapped to a failed lookup,
and the fuel (started at the remaining word's length, consumed slower than
the word) only makes the recursion structural. -/

def descend : Nat → JVal → List Char → List Char → Option (JVal × List Char)
  | _, v, [], acc => some (v, acc)
  | 0, _, _ :: _, _ => none
  | fuel + 1, .obj es, c0 :: crest, acc =>
      match findMatchKey es (c0 :: crest) with
      | none => none
      | some ([], _) => none
      | some (kc :: ks, child) =>
          descend fuel child ((c0 :: crest).drop (kc :: ks).length) (acc ++ (kc :: ks))
  | _ + 1, .bl _, _ :: _, _ => none
  | _ + 1, .nm _, _ :: _, _ => none

/-- The word list `complete` enumerates after a successful descent. -/

def completeCore (model : JVal) (p : List Char) (maxWord : Nat) : List (List Char) :=
  if p = [] then []
  else
    match descend (lowerStr p).length model (lowerStr p) [] with
    | none => []
    | some (nd, m) => findWords nd m maxWord []

/-- JS return shape of `complete`: an array for `maxWord > 1`, otherwise a
single word or `undefined`. -/

inductive JSRet : Type where
  | many (l : List (List Char))
  | one (w : Option (List Char))
  deriving DecidableEq

def Trie.complete (model : JVal) (p : List Char) (maxWord : Nat) : JSRet :=
  if p = [] then if 1 < maxWord then .many [] else .one none
  else
    match descend (lowerStr p).length model (lowerStr p) [] with
    | none => if 1 < maxWord then .many [] else .one none
    | some (nd, m) =>
        let found := findWords nd m maxWord []
        if 1 < maxWord then .many found else .one found.head?

/-- A word-end leaf: the object `{flush: true, index: i}`. -/

def wordEnd (i : Nat) : JVal :=
  .obj (.cons flushK (.bl true) (.cons indexK (.nm i) .nil))

/-! ## Trie.levenshteinSearch and Trie.closest -/


/-- An element of `levenshteinSearch`'s result: `{ word, distance, index }`. -/

structure SearchHit : Type where
  word : List Char
  distance : Nat
  idx : Nat
  deriving DecidableEq

mutual
/-- `levenshteinSearch(target, maxDistance, node, word, results)`: push a hit
at word-end nodes when the bounded distance is within the bound, then recurse
into every key (the `key !== this.flush` guard never skips, `this.flush`
being `null`); visiting the metadata keys adds nothing, since their primitive
values have no `flush` property and no keys. -/
def levSearch (target : List Char) (maxDistance : Nat) (v : JVal) (word : List Char)
    (results : List SearchHit) : List SearchHit :=
  let results1 :=
    if flushy v then
      let d := levenshtein word target maxDistance
      if d ≤ maxDistance then results ++ [⟨word, d, getIdx v⟩] else results
    else results
  match v with
  | .obj es => levSearchGo target maxDistance es word results1
  | _ => results1

def levSearchGo (target : List Char) (maxDistance : Nat) :
    Entries → List Char → List SearchHit → List SearchHit
  | .nil, _, results => results
  | .cons k u rest, word, results =>
      levSearchGo target maxDistance rest word
        (levSearch target maxDistance u (word ++ k) results)
end


/-- Adjusted distance used by `closest`'s comparator: a penalty of
`(index - 5000) * 0.01` beyond the high-index threshold.  JS computes with
binary doubles; the exact rational `1/100` stands in for the double `0.01`
(C9 is independent of the comparator's values). -/

def adjDist (h : SearchHit) : ℚ :=
  (h.distance : ℚ) + (if 5000 < h.idx then ((h.idx : ℚ) - 5000) * (1 / 100) else 0)

/-- `comparator(a, b) <= 0` for `closest`'s sort: compare adjusted distances,
tie-break on insertion index. -/

def hitCmpLe (a b : SearchHit) : Bool :=
  if adjDist a = adjDist b then a.idx ≤ b.idx else adjDist a ≤ adjDist b

/-- Stable insertion respecting the comparator (ECMAScript requires
`Array.prototype.sort` to be stable; the algorithm itself is unspecified, so
any stable comparator-respecting sort models it). -/

def insSorted (x : SearchHit) : List SearchHit → List SearchHit
  | [] => [x]
  | y :: ys => if hitCmpLe y x then y :: insSorted x ys else x :: y :: ys

def sortHits (l : List SearchHit) : List SearchHit :=
  l.foldl (fun acc x => insSorted x acc) []

/-- `closest(target, maxDistance)`: empty for a contained word, otherwise the
sorted full scan. -/

def Trie.closest (model : JVal) (target : List Char) (maxDistance : Nat) : List SearchHit :=
  if Trie.contains model target then []
  else sortHits (levSearch target maxDistance model [] [])

/-! ## Path semantics of a node value

`PathW v w` says that starting at `v` and following entry keys (concatenating
them) one can spell `w` and land on a node whose `flush` property is truthy —
i.e. `w` is a word the node graph can produce.  `EdgePath v t nd` says `nd`
is reached from `v` by following entry keys spelling `t`. -/


inductive EntryMem : List Char → JVal → Entries → Prop where
  | head (k : List Char) (v : JVal) (rest : Entries) : EntryMem k v (.cons k v rest)
  | tail {k v rest} (k' : List Char) (v' : JVal) :
      EntryMem k v rest → EntryMem k v (.cons k' v' rest)

inductive PathW : JVal → List Char → Prop where
  | here {es : Entries} : truthy (entLookup es flushK) = true → PathW (.obj es) []
  | step {es : Entries} {k : List Char} {u : JVal} {w : List Char} :
      EntryMem k u es → PathW u w → PathW (.obj es) (k ++ w)

inductive EdgePath : JVal → List Char → JVal → Prop where
  | refl (v : JVal) : EdgePath v [] v
  | step {es : Entries} {k : List Char} {u nd : JVal} {t : List Char} :
      EntryMem k u es → EdgePath u t nd → EdgePath (.obj es) (k ++ t) nd

/-! ## Well-formed nodes

Every node reachable in a constructor-built (pre-compress) trie has entries
which are either single-character edges to further nodes, or the metadata
entries `flush`/`index` holding primitives.  This is what makes the single
`compress` call of the constructor well-behaved: hoisted keys `k ++ k1` have
length 2 or 6 and can neither collide with the five-character metadata keys
nor (being longer than 1) with the original single-character edges. -/


def isPrim : JVal → Bool
  | .obj _ => false
  | _ => true

mutual
inductive WFV : JVal → Prop where
  | bl (b : Bool) : WFV (.bl b)
  | nm (n : Nat) : WFV (.nm n)
  | obj {es : Entries} : WFE es → WFV (.obj es)
inductive WFE : Entries → Prop where
  | nil : WFE .nil
  | consChar {k u rest} : k.length = 1 → WFV u → WFE rest → WFE (.cons k u rest)
  | consMeta {k u rest} : (k = flushK ∨ k = indexK) → isPrim u = true → WFE rest →
      WFE (.cons k u rest)
end

/-! ### compress only removes or relabels producible words

`SoundTo cur base` states that every word producible from the working entry
list `cur` was producible from the original entry list `base`. -/


def SoundTo (cur base : Entries) : Prop :=
  ∀ w, PathW (.obj cur) w → PathW (.obj base) w

/-- Number of child edges of a node: keys other than the metadata keys. -/

def childCount : Entries → Nat
  | .nil => 0
  | .cons k _ rest => (if k = flushK ∨ k = indexK then 0 else 1) + childCount rest

mutual
/-- Does some strict descendant node violate the claimed compression
invariant, i.e. is it a non-word-end object with exactly one child edge? -/
def hasLoneInternal : JVal → Bool
  | .obj es => hasLoneInternalGo es
  | _ => false
def hasLoneInternalGo : Entries → Bool
  | .nil => false
  | .cons _ u rest =>
      (match u with
       | .obj ues =>
           (!truthy (entLookup ues flushK) && childCount ues == 1) || hasLoneInternal (.obj ues)
       | _ => false) ||
      hasLoneInternalGo rest
end

/-! ## StatisticalLanguageModel: `src/ngram.js`

JS numbers are embedded as exact rationals (`ℚ`); the numbers reached in the
claims — integer window sizes, 2.5, and probabilities built from small
integer counts — are exactly representable as binary doubles, so the two
agree on them. -/


/-- `ToIntegerOrInfinity`: truncation toward zero, as applied by
`Array.prototype.slice` to its arguments. -/

def jsToInt (q : ℚ) : ℤ := if q < 0 then ⌈q⌉ else ⌊q⌋

/-- `arr.slice(a, b)` after integer conversion: clamp, then the elements from
`a` (inclusive) to `b` (exclusive). -/

def jsSlice {α : Type} (l : List α) (a b : ℤ) : List α :=
  let n : ℤ := l.length
  let st := if a < 0 then max (n + a) 0 else min a n
  let en := if b < 0 then max (n + b) 0 else min b n
  (l.drop st.toNat).take (en - st).toNat

/-- `arr.slice(a)` (one argument): up to the end of the array. -/

def jsSlice1 {α : Type} (l : List α) (a : ℤ) : List α := jsSlice l a l.length

/-- `Ngram.punctuation = /[.!?␃]$/` as a test on a token. -/

def eosB (w : List Char) : Bool :=
  match w.getLast? with
  | some c => c = '.' || c = '!' || c = '?' || c = '␃'
  | none => false

/-- `str.replace('␃', '')`: remove the first occurrence only. -/

def removeFirstMarker : List Char → List Char
  | [] => []
  | c :: cs => if c = '␃' then cs else c :: removeFirstMarker cs

/-- `str.replace(/[.!?␃]$/, '')`: strip one trailing end-of-sentence mark. -/

def stripEosOnce (w : List Char) : List Char :=
  if eosB w then w.dropLast else w

/-- `str.trim()`. -/

def jsTrim (s : List Char) : List Char :=
  ((s.dropWhile isWs).reverse.dropWhile isWs).reverse

/-- JS `Map.prototype.get`. -/

def mapGet {α : Type} : List (List Char × α) → List Char → Option α
  | [], _ => none
  | (k, v) :: rest, key => if k = key then some v else mapGet rest key

/-- JS `Map.prototype.set`: update in place (keeping the key's position in
iteration order) or append. -/

def mapSet {α : Type} : List (List Char × α) → List Char → α → List (List Char × α)
  | [], key, v => [(key, v)]
  | (k, w) :: rest, key, v =>
      if k = key then (k, v) :: rest else (k, w) :: mapSet rest key v

/-- One iteration of `tabulate`'s loop at window start `i`: skip when any of
the first `n-1` tokens ends a sentence; otherwise increment — reading the
count under the pre-strip key but storing under the post-strip key (the
latent inconsistency is kept as the source has it). -/

def tabulateStep (tokens : List (List Char)) (size : ℚ)
    (m : List (List Char × Nat)) (i : Nat) : List (List Char × Nat) :=
  if (jsSlice tokens (i : ℤ) (jsToInt ((i : ℚ) + size - 1))).any eosB then m
  else
    let ngram := joinSpace (jsSlice tokens (i : ℤ) (jsToInt ((i : ℚ) + size)))
    mapSet m (removeFirstMarker ngram) ((mapGet m ngram).getD 0 + 1)

/-- Number of loop iterations: `i` runs while `i <= tokens.length - size`. -/

def iterCount (len : Nat) (size : ℚ) : Nat := (⌊(len : ℚ) - size⌋ + 1).toNat

/-- `tabulate(tokens, size)` (the `size <= 0` validation lives in
`ngramNew`). -/

def tabulate (tokens : List (List Char)) (size : ℚ) : List (List Char × Nat) :=
  (List.range (iterCount tokens.length size)).foldl (tabulateStep tokens size) []

/-- The computational twin of `tabulateStep` for an integer window size. -/

def tabulateStepN (tokens : List (List Char)) (n : Nat)
    (m : List (List Char × Nat)) (i : Nat) : List (List Char × Nat) :=
  if (jsSlice tokens (i : ℤ) ((i : ℤ) + n - 1)).any eosB then m
  else
    let ngram := joinSpace (jsSlice tokens (i : ℤ) ((i : ℤ) + n))
    mapSet m (removeFirstMarker ngram) ((mapGet m ngram).getD 0 + 1)

def tabulateN (tokens : List (List Char)) (n : Nat) : List (List Char × Nat) :=
  (List.range (tokens.length + 1 - n)).foldl (tabulateStepN tokens n) []

/-- `probabilities(grams)`: each count divided by the grand total. -/

def probabilities (grams : List (List Char × Nat)) : List (List Char × ℚ) :=
  let total : Nat := grams.foldl (fun s e => s + e.2) 0
  grams.map (fun e => (e.1, (e.2 : ℚ) / (total : ℚ)))

/-- The acceptance test of `suggestNextWord` on an n-gram key `g`:
`sequence.toLowerCase().endsWith(match.toLowerCase())`, where the source's
local `match` is `g` minus its final space-separated token. -/

def matchesB (seq g : List Char) : Bool :=
  sfxB (lowerStr (joinSpace ((splitOnSpace g []).dropLast))) (lowerStr seq)

/-- `words[words.length - 1]` for the split n-gram key `g`. -/

def lastTok (g : List Char) : List Char := (splitOnSpace g []).getLastD []

/-- The scan of `suggestNextWord`: skip entries whose probability does not
strictly exceed the best accepted so far; accept an entry whose leading
`n-1` tokens case-insensitively suffix-match the sequence; break the instant
an accepted probability equals 1. -/

def sngGo (seq : List Char) : List (List Char × ℚ) → ℚ → List Char → List Char
  | [], _, w => w
  | (g, p) :: rest, maxP, w =>
      if p ≤ maxP then sngGo seq rest maxP w
      else
        if matchesB seq g then
          if p = 1 then lastTok g
          else sngGo seq rest p (lastTok g)
        else sngGo seq rest maxP w

/-- The first entry of maximal value in an association list, in iteration
order (an earlier entry wins ties).  Used only to state what the scan of
`suggestNextWord` selects. -/

def firstMax : List (List Char × ℚ) → Option (List Char × ℚ)
  | [] => none
  | e :: rest =>
      match firstMax rest with
      | none => some e
      | some e' => if e.2 < e'.2 then some e' else some e

def suggestNextWord (model : List (List Char × ℚ)) (seq : List Char)
    (sanitize : Bool) : List Char :=
  if sanitize then stripEosOnce (jsTrim (sngGo seq model 0 []))
  else sngGo seq model 0 []

/-- The constructor input: `typeof text !== 'string'` rejects everything but
a string — including a token array. -/

inductive JSInput : Type where
  | str (s : List Char)
  | arr (l : List (List Char))

def tokenizeE : JSInput → Except (List Char) (List (List Char))
  | .str s => .ok (splitWs s)
  | .arr _ => .error "Invalid constructor, must be String".data

/-- The instance state: window size, probability model, and the `lookup`
suggestion cache. -/

structure NgramState : Type where
  size : ℚ
  model : List (List Char × ℚ)
  lookup : List Char
  deriving DecidableEq

/-- The model built from a source string (the body of `setValue`). -/

def ngramFromText (s : List Char) (size : ℚ) : NgramState :=
  ⟨size, probabilities (tabulate (splitWs s) size), []⟩

/-- The `Ngram` constructor: `tokenize` throws on non-string input, then
`tabulate` throws unless the size is a positive number.  (`typeof size !==
'number'` also throws; sizes are numbers by the embedding's type.) -/

def ngramNew (input : JSInput) (size : ℚ) : Except (List Char) NgramState :=
  match tokenizeE input with
  | .error e => .error e
  | .ok _ =>
      if size ≤ 0 then .error "Invalid n value, must be a positive number".data
      else
        match input with
        | .str s => .ok (ngramFromText s size)
        | .arr _ => .error "Invalid constructor, must be String".data

def constructionOk {ε α : Type} : Except ε α → Bool
  | .ok _ => true
  | .error _ => false

/-- `words.slice(-index).join(' ')` with `index = size - 1`: the lookup key
of `complete`'s loop. -/

def lastSeq (size : ℚ) (words : List (List Char)) : List Char :=
  joinSpace (jsSlice1 words (jsToInt (-(size - 1))))

/-- The word-growing loop of `complete`: cycle guard on seen lookup keys,
stop after appending a sentence-ending word, stop on an empty prediction.
(`nextWord` is computed once in the source; the repeated pure calls here are
equal to it.) -/

def completeLoop (size : ℚ) (model : List (List Char × ℚ)) :
    Nat → List (List Char) → List (List Char) → List (List Char)
  | 0, words, _ => words
  | k + 1, words, seen =>
      if lastSeq size words ∈ seen then words
      else
        if eosB (suggestNextWord model (lastSeq size words) true) then
          words ++ [suggestNextWord model (lastSeq size words) true]
        else
          if suggestNextWord model (lastSeq size words) true = [] then words
          else
            completeLoop size model k
              (words ++ [suggestNextWord model (lastSeq size words) true])
              (lastSeq size words :: seen)

/-- The freshly computed candidate suggestion of a `complete` call. -/

def candidate (st : NgramState) (p : List Char) (maxWords : Nat) : List Char :=
  joinSpace (completeLoop st.size st.model maxWords (splitWs p) [])

/-- `complete(prefix, maxWords)`: empty prefix resets the cache; otherwise
compute the candidate, update the cache when the candidate differs from the
prefix and from the cache and extends the prefix, and return the cache when
it is non-empty and extends the prefix, the candidate otherwise. -/

def Ngram.complete (st : NgramState) (p : List Char) (maxWords : Nat) :
    List Char × NgramState :=
  if p = [] then ([], { st with lookup := [] })
  else
    let c := candidate st p maxWords
    let lookup' :=
      if c ≠ p ∧ c ≠ st.lookup ∧ pfxB p c = true then c else st.lookup
    if lookup' ≠ [] ∧ pfxB p lookup' = true then (lookup', { st with lookup := lookup' })
    else (c, { st with lookup := lookup' })

/-! ### C7: a window is counted iff its first n-1 tokens end no sentence -/


/-- The window at `i` is processed: none of its first `n-1` tokens matches
the end-of-sentence pattern. -/

def okWindow (tokens : List (List Char)) (n : Nat) (i : Nat) : Bool :=
  !(jsSlice tokens (i : ℤ) ((i : ℤ) + n - 1)).any eosB

/-- The unconditional count update for the window at `i` (with the source's
pre-strip get / post-strip set keying). -/

def incrWindow (tokens : List (List Char)) (n : Nat)
    (m : List (List Char × Nat)) (i : Nat) : List (List Char × Nat) :=
  let ngram := joinSpace (jsSlice tokens (i : ℤ) ((i : ℤ) + n))
  mapSet m (removeFirstMarker ngram) ((mapGet m ngram).getD 0 + 1)

/-- The probability model the constructor builds from `"a b c"` with size 2. -/

def exModel : List (List Char × ℚ) := [("a b".data, 1 / 2), ("b c".data, 1 / 2)]

/-! ## Theorems -/

/-- C1: the spec claims the asymmetric cost model substitution = 1,
insertion (adding a character to source) = 1, deletion (removing a character
from source) = 2, with `distance("cat","cats",3) = 1` and
`distance("cat","ca",3) = 2`.  The code applies `deletionScore` to the
insertion move (`currRow[j-1] + deletionScore`) and `additionScore` to the
deletion move (`prevRow[j] + additionScore`), so it actually computes 2 for
`("cat","cats",3)` and 1 for `("cat","ca",3)` — the opposite of the claim. -/

theorem c1_levenshtein_costs_swapped :
    levenshtein "cat".data "cats".data 3 = 2 ∧ levenshtein "cat".data "ca".data 3 = 1 := by
  decide

/-- Sanity: the spec's own worked example.  For a trie built from
`["car","cat","pot"]`: `contains("cat")`, `!contains("ca")`, and
`complete("ca", 2) = ["car","cat"]` in insertion order. -/

theorem trie_worked_example :
    Trie.contains (trieNew ["car".data, "cat".data, "pot".data]) "cat".data = true ∧
    Trie.contains (trieNew ["car".data, "cat".data, "pot".data]) "ca".data = false ∧
    Trie.complete (trieNew ["car".data, "cat".data, "pot".data]) "ca".data 2 =
      .many ["car".data, "cat".data] := by
  decide

/-- C2: the claim says that for a non-empty string whose lowercasing is a
prefix of an inserted word, `complete` returns at least one completion.  It
fails: on the trie built from `["a", "af"]`, the descent for prefix `"af"`
consumes edge `"a"`, then matches the remaining segment `"f"` against the
metadata key `"flush"` of the word-end node (`"flush".startsWith("f")`),
walks into the primitive `true` and finds nothing — even though `"af"` is
itself an inserted word (`contains` confirms it). -/

theorem c2_complete_misses_inserted_word :
    Trie.contains (trieNew ["a".data, "af".data]) "af".data = true ∧
    Trie.complete (trieNew ["a".data, "af".data]) "af".data 1 = .one none ∧
    Trie.complete (trieNew ["a".data, "af".data]) "af".data 2 = .many [] := by
  decide

/-- C3: the claim says `compress` is idempotent on node structure.  It is not:
the constructor leaves the single word `"abc"` as the two-edge chain
`"ab" → "c"` (after hoisting `"b"`'s child, `compress` recurses into the
detached node, so the hoisted grandchild's own single-child level is never
merged into the tree), and a second `compress` call merges the chain further
to the single edge `"abc"`, changing the node structure. -/

theorem c3_compress_not_idempotent :
    trieNew ["abc".data] =
      .obj (.cons "ab".data (.obj (.cons "c".data (wordEnd 1) .nil)) .nil) ∧
    compress (trieNew ["abc".data]) =
      .obj (.cons "abc".data (wordEnd 1) .nil) ∧
    compress (trieNew ["abc".data]) ≠ trieNew ["abc".data] := by
  decide

theorem insSorted_mem {x y : SearchHit} {l : List SearchHit} :
    x ∈ insSorted y l → x = y ∨ x ∈ l := by
  induction l with
  | nil => simp [insSorted]
  | cons z zs ih =>
      simp only [insSorted]
      by_cases h : hitCmpLe z y
      · simp only [h, if_pos]
        intro hx
        rcases List.mem_cons.1 hx with rfl | hx
        · right; exact List.mem_cons_self ..
        · rcases ih hx with h1 | h1
          · exact Or.inl h1
          · exact Or.inr (List.mem_cons_of_mem _ h1)
      · simp only [h, if_neg, Bool.false_eq_true, not_false_iff]
        intro hx
        rcases List.mem_cons.1 hx with rfl | hx
        · exact Or.inl rfl
        · exact Or.inr hx

theorem sortHits_mem {x : SearchHit} {l : List SearchHit} :
    x ∈ sortHits l → x ∈ l := by
  have key : ∀ (l acc : List SearchHit),
      x ∈ l.foldl (fun acc x => insSorted x acc) acc → x ∈ acc ∨ x ∈ l := by
    intro l
    induction l with
    | nil => intro acc h; exact Or.inl h
    | cons z zs ih =>
        intro acc h
        rcases ih (insSorted z acc) h with h1 | h1
        · rcases insSorted_mem h1 with rfl | h2
          · exact Or.inr (List.mem_cons_self ..)
          · exact Or.inl h2
        · exact Or.inr (List.mem_cons_of_mem _ h1)
  intro h
  rcases key l [] h with h1 | h1
  · cases h1
  · exact h1

mutual
theorem levSearch_mem (target : List Char) (maxDistance : Nat) :
    ∀ (v : JVal) (word : List Char) (results : List SearchHit) (x : SearchHit),
      x ∈ levSearch target maxDistance v word results →
        x ∈ results ∨ x.distance ≤ maxDistance
  | .obj es, word, results, x => by
      intro hx
      rw [levSearch] at hx
      simp only at hx
      rcases levSearchGo_mem target maxDistance es word _ x hx with h1 | h1
      · by_cases hf : flushy (JVal.obj es)
        · simp only [hf, if_pos] at h1
          by_cases hd : levenshtein word target maxDistance ≤ maxDistance
          · simp only [hd, if_pos] at h1
            rcases List.mem_append.1 h1 with h2 | h2
            · exact Or.inl h2
            · right
              rcases List.mem_singleton.1 h2 with rfl
              exact hd
          · simp only [hd, if_neg, not_false_iff] at h1
            exact Or.inl h1
        · simp only [hf, if_neg, Bool.false_eq_true, not_false_iff] at h1
          exact Or.inl h1
      · exact Or.inr h1
  | .bl b, word, results, x => by
      intro hx
      simp only [levSearch, flushy, getProp, truthy, Bool.false_eq_true, if_false] at hx
      exact Or.inl hx
  | .nm n, word, results, x => by
      intro hx
      simp only [levSearch, flushy, getProp, truthy, Bool.false_eq_true, if_false] at hx
      exact Or.inl hx

theorem levSearchGo_mem (target : List Char) (maxDistance : Nat) :
    ∀ (es : Entries) (word : List Char) (results : List SearchHit) (x : SearchHit),
      x ∈ levSearchGo target maxDistance es word results →
        x ∈ results ∨ x.distance ≤ maxDistance
  | .nil, word, results, x => by
      intro hx
      rw [levSearchGo] at hx
      exact Or.inl hx
  | .cons k u rest, word, results, x => by
      intro hx
      rw [levSearchGo] at hx
      rcases levSearchGo_mem target maxDistance rest word _ x hx with h1 | h1
      · exact levSearch_mem target maxDistance u (word ++ k) results x h1
      · exact Or.inr h1
end


/-- C9: for every trie value, target and bound, `closest` returns `[]`
whenever `contains(target)` holds (the guard at the top of `closest`), and
every returned entry's `distance` is at most `maxDistance`
(`levenshteinSearch` only pushes hits passing `distance <= maxDistance`, and
the comparator sort only permutes them). -/

theorem c9_closest_bounded (model : JVal) (target : List Char) (maxDistance : Nat) :
    (Trie.contains model target = true →
      Trie.closest model target maxDistance = []) ∧
    ∀ x ∈ Trie.closest model target maxDistance, x.distance ≤ maxDistance := by
  constructor
  · intro h
    simp [Trie.closest, h]
  · intro x hx
    rw [Trie.closest] at hx
    by_cases hc : Trie.contains model target
    · simp [hc] at hx
    · simp only [hc, Bool.false_eq_true, if_neg, not_false_iff] at hx
      rcases levSearch_mem target maxDistance model [] [] x (sortHits_mem hx) with h1 | h1
      · cases h1
      · exact h1

/-- Witness for C9 at a concrete trie: `["cat","bat"]` with target `"cat"`
(contained, so `closest` is empty) and the bound 2. -/

theorem c9_closest_bounded_witness :
    Trie.contains (trieNew ["cat".data, "bat".data]) "cat".data = true ∧
    Trie.closest (trieNew ["cat".data, "bat".data]) "cat".data 2 = [] ∧
    ∀ x ∈ Trie.closest (trieNew ["cat".data, "bat".data]) "cat".data 2,
      x.distance ≤ 2 :=
  ⟨by decide,
   (c9_closest_bounded (trieNew ["cat".data, "bat".data]) "cat".data 2).1 (by decide),
   (c9_closest_bounded (trieNew ["cat".data, "bat".data]) "cat".data 2).2⟩

/-- Sanity: a non-trivial `closest` query: `"cut"` is not contained, `"cat"`
is within distance 1 (one substitution), `"bat"` is not. -/

theorem closest_worked_example :
    Trie.closest (trieNew ["cat".data, "bat".data]) "cut".data 1 =
      [⟨"cat".data, 1, 1⟩] := by
  decide

theorem edgePath_pathW {v nd : JVal} {t w : List Char} :
    EdgePath v t nd → PathW nd w → PathW v (t ++ w) := by
  intro he
  induction he with
  | refl => exact fun h => h
  | step hm _ ih =>
      intro hw
      rw [List.append_assoc]
      exact PathW.step hm (ih hw)

/-! ### Association-list lemmas -/


theorem entryMem_lookup (k : List Char) (v : JVal) :
    ∀ (es : Entries), entLookup es k = some v → EntryMem k v es
  | .nil => by intro h; simp [entLookup] at h
  | .cons k' v' rest => by
      intro h
      rw [entLookup] at h
      by_cases he : k' = k
      · rw [if_pos he] at h
        cases h
        cases he
        exact EntryMem.head ..
      · rw [if_neg he] at h
        exact EntryMem.tail _ _ (entryMem_lookup k v rest h)

theorem entryMem_setK (key k : List Char) (val v : JVal) :
    ∀ (es : Entries), EntryMem k v (setK es key val) → (k = key ∧ v = val) ∨ EntryMem k v es
  | .nil => by
      intro h
      rw [setK] at h
      cases h with
      | head => exact Or.inl ⟨rfl, rfl⟩
      | tail _ _ h' => cases h'
  | .cons k' v' rest => by
      intro h
      rw [setK] at h
      by_cases he : k' = key
      · rw [if_pos he] at h
        cases h with
        | head => exact Or.inl ⟨he, rfl⟩
        | tail _ _ h' => exact Or.inr (EntryMem.tail _ _ h')
      · rw [if_neg he] at h
        cases h with
        | head => exact Or.inr (EntryMem.head ..)
        | tail _ _ h' =>
            rcases entryMem_setK key k val v rest h' with h1 | h1
            · exact Or.inl h1
            · exact Or.inr (EntryMem.tail _ _ h1)

theorem entryMem_eraseK (key k : List Char) (v : JVal) :
    ∀ (es : Entries), EntryMem k v (eraseK es key) → EntryMem k v es
  | .nil => by intro h; rw [eraseK] at h; cases h
  | .cons k' v' rest => by
      intro h
      rw [eraseK] at h
      by_cases he : k' = key
      · rw [if_pos he] at h
        exact EntryMem.tail _ _ h
      · rw [if_neg he] at h
        cases h with
        | head => exact EntryMem.head ..
        | tail _ _ h' => exact EntryMem.tail _ _ (entryMem_eraseK key k v rest h')

theorem lookup_setK_ne (key k : List Char) (val : JVal) (h : k ≠ key) :
    ∀ (es : Entries), entLookup (setK es key val) k = entLookup es k
  | .nil => by
      simp [setK, entLookup]
      intro hh
      exact absurd hh.symm h
  | .cons k' v' rest => by
      rw [setK]
      by_cases he : k' = key
      · subst he
        rw [if_pos rfl, entLookup, entLookup, if_neg (fun hh => h hh.symm),
          if_neg (fun hh => h hh.symm)]
      · rw [if_neg he, entLookup, entLookup]
        by_cases he2 : k' = k
        · rw [if_pos he2, if_pos he2]
        · rw [if_neg he2, if_neg he2, lookup_setK_ne key k val h rest]

theorem lookup_eraseK_ne (key k : List Char) (h : k ≠ key) :
    ∀ (es : Entries), entLookup (eraseK es key) k = entLookup es k
  | .nil => by rw [eraseK]
  | .cons k' v' rest => by
      rw [eraseK]
      by_cases he : k' = key
      · subst he
        rw [if_pos rfl, entLookup, if_neg (fun hh => h hh.symm)]
      · rw [if_neg he, entLookup, entLookup]
        by_cases he2 : k' = k
        · rw [if_pos he2, if_pos he2]
        · rw [if_neg he2, if_neg he2, lookup_eraseK_ne key k h rest]

/-! ### pfxB lemmas -/


theorem pfxB_append_right {a b : List Char} (c : List Char) (h : pfxB a b = true) :
    pfxB a (b ++ c) = true := by
  induction a generalizing b with
  | nil => rw [pfxB]
  | cons x xs ih =>
      cases b with
      | nil => cases h
      | cons y ys =>
          rw [pfxB] at h
          rcases Bool.and_eq_true_iff.1 h with ⟨h1, h2⟩
          rw [List.cons_append, pfxB, h1]
          simpa using ih h2

theorem pfxB_append_same {a b : List Char} (c : List Char) (h : pfxB a b = true) :
    pfxB (c ++ a) (c ++ b) = true := by
  induction c with
  | nil => simpa using h
  | cons x xs ih => simpa [pfxB] using ih

theorem pfxB_recover {k rem : List Char} (h : pfxB k rem = true) :
    k ++ rem.drop k.length = rem := by
  induction k generalizing rem with
  | nil => simp
  | cons x xs ih =>
      cases rem with
      | nil => cases h
      | cons y ys =>
          rw [pfxB] at h
          rcases Bool.and_eq_true_iff.1 h with ⟨h1, h2⟩
          have h1' : x = y := by simpa using h1
          simp [h1', ih h2]


theorem wfe_mem_obj (ues : Entries) (k : List Char) :
    ∀ (es : Entries), WFE es → EntryMem k (.obj ues) es → k.length = 1 ∧ WFV (.obj ues)
  | .nil => by intro _ hm; cases hm
  | .cons k' v' rest => by
      intro hwf hm
      cases hm with
      | head =>
          cases hwf with
          | consChar h1 h2 _ => exact ⟨h1, h2⟩
          | consMeta _ h2 _ => simp [isPrim] at h2
      | tail _ _ h' =>
          cases hwf with
          | consChar _ _ h3 => exact wfe_mem_obj ues k rest h3 h'
          | consMeta _ _ h3 => exact wfe_mem_obj ues k rest h3 h'

theorem wfe_key_len (k : List Char) (u : JVal) :
    ∀ (es : Entries), WFE es → EntryMem k u es → k.length = 1 ∨ k.length = 5
  | .nil => by intro _ hm; cases hm
  | .cons k' v' rest => by
      intro hwf hm
      cases hm with
      | head =>
          cases hwf with
          | consChar h1 _ _ => exact Or.inl h1
          | consMeta h1 _ _ =>
              right
              rcases h1 with rfl | rfl <;> rfl
      | tail _ _ h' =>
          cases hwf with
          | consChar _ _ h3 => exact wfe_key_len k u rest h3 h'
          | consMeta _ _ h3 => exact wfe_key_len k u rest h3 h'

theorem soundTo_eraseK {cur base : Entries} {k : List Char} (hk : k ≠ flushK)
    (hs : SoundTo cur base) : SoundTo (eraseK cur k) base := by
  intro w hw
  cases hw with
  | here h =>
      rw [lookup_eraseK_ne k flushK (fun hh => hk hh.symm)] at h
      exact hs [] (PathW.here h)
  | step hm hp => exact hs _ (PathW.step (entryMem_eraseK _ _ _ _ hm) hp)

theorem soundTo_setK {cur base : Entries} {key : List Char} {val : JVal}
    (hk : key ≠ flushK)
    (hnew : ∀ w', PathW val w' → PathW (.obj base) (key ++ w'))
    (hs : SoundTo cur base) : SoundTo (setK cur key val) base := by
  intro w hw
  cases hw with
  | here h =>
      rw [lookup_setK_ne key flushK val (fun hh => hk hh.symm)] at h
      exact hs [] (PathW.here h)
  | step hm hp =>
      rcases entryMem_setK _ _ _ _ _ hm with ⟨rfl, rfl⟩ | hm'
      · exact hnew _ hp
      · exact hs _ (PathW.step hm' hp)

theorem flushK_length : flushK.length = 5 := rfl

theorem indexK_length : indexK.length = 5 := rfl

theorem flushy_bl (b : Bool) : flushy (.bl b) = false := rfl

theorem flushy_nm (n : Nat) : flushy (.nm n) = false := rfl

mutual
theorem compress_pathw : ∀ (v : JVal), WFV v → ∀ w, PathW (compress v) w → PathW v w
  | .obj es => fun hwf w hw => by
      rw [compress] at hw
      have hes : WFE es := by cases hwf with | obj h => exact h
      exact compressGo_sound es hes es es (fun _ _ hm => hm) (fun _ h => h) w hw
  | .bl b => fun _ w hw => by simpa [compress] using hw
  | .nm n => fun _ w hw => by simpa [compress] using hw

theorem compressGo_sound : ∀ (base : Entries), WFE base → ∀ (sn cur : Entries),
    (∀ k u, EntryMem k u sn → EntryMem k u base) →
    SoundTo cur base → SoundTo (compressGo sn cur) base
  | base, hwf₀, .nil, cur, hsub, hcur => by rw [compressGo]; exact hcur
  | base, hwf₀, .cons k (.bl b) rest, cur, hsub, hcur => by
      rw [compressGo]
      exact compressGo_sound base hwf₀ rest cur
        (fun k' u' hm => hsub k' u' (EntryMem.tail _ _ hm)) hcur
  | base, hwf₀, .cons k (.nm n) rest, cur, hsub, hcur => by
      rw [compressGo]
      exact compressGo_sound base hwf₀ rest cur
        (fun k' u' hm => hsub k' u' (EntryMem.tail _ _ hm)) hcur
  | base, hwf₀, .cons k (.obj .nil) rest, cur, hsub, hcur => by
      have hsub' : ∀ k' u', EntryMem k' u' rest → EntryMem k' u' base :=
        fun k' u' hm => hsub k' u' (EntryMem.tail _ _ hm)
      have hmem : EntryMem k (.obj .nil) base := hsub k _ (EntryMem.head ..)
      have hkwf := wfe_mem_obj .nil k base hwf₀ hmem
      have hkne : k ≠ flushK := fun hh => by
        have h5 := hkwf.1
        rw [hh, flushK_length] at h5
        omega
      rw [compressGo, if_neg (by decide)]
      refine compressGo_sound base hwf₀ rest _ hsub' (soundTo_setK hkne ?_ hcur)
      intro w' hp
      have hp' := compress_pathw (.obj .nil) hkwf.2 w' hp
      exact PathW.step hmem hp'
  | base, hwf₀, .cons k (.obj (.cons k1 (.obj ges) .nil)) rest, cur, hsub, hcur => by
      have hsub' : ∀ k' u', EntryMem k' u' rest → EntryMem k' u' base :=
        fun k' u' hm => hsub k' u' (EntryMem.tail _ _ hm)
      have hmem : EntryMem k (.obj (.cons k1 (.obj ges) .nil)) base :=
        hsub k _ (EntryMem.head ..)
      have hkwf := wfe_mem_obj _ k base hwf₀ hmem
      have hues : WFE (.cons k1 (.obj ges) .nil) := by
        cases hkwf.2 with | obj h => exact h
      have hkne : k ≠ flushK := fun hh => by
        have h5 := hkwf.1
        rw [hh, flushK_length] at h5
        omega
      have hkkne : k ++ k1 ≠ flushK := fun hh => by
        have h5 : (k ++ k1).length = 5 := by rw [hh, flushK_length]
        rw [List.length_append, hkwf.1] at h5
        rcases wfe_key_len k1 _ _ hues (EntryMem.head ..) with h1 | h1 <;> omega
      have hgwf : WFV (.obj ges) := (wfe_mem_obj ges k1 _ hues (EntryMem.head ..)).2
      have hnew : ∀ (g'' : JVal), (∀ w', PathW g'' w' → PathW (.obj ges) w') →
          ∀ w', PathW g'' w' → PathW (.obj base) ((k ++ k1) ++ w') := by
        intro g'' hred w' hp
        have hp1 : PathW (.obj (.cons k1 (.obj ges) .nil)) (k1 ++ w') :=
          PathW.step (EntryMem.head ..) (hred w' hp)
        have hp2 : PathW (.obj base) (k ++ (k1 ++ w')) := PathW.step hmem hp1
        rw [List.append_assoc]
        exact hp2
      rw [compressGo]
      by_cases hfl : truthy (entLookup (.cons k1 (.obj ges) .nil) flushK) = true
      · rw [if_pos hfl]
        exact compressGo_sound base hwf₀ rest cur hsub' hcur
      · rw [if_neg hfl]
        by_cases hgf : truthy (entLookup ges flushK) = true
        · rw [if_pos hgf]
          exact compressGo_sound base hwf₀ rest _ hsub'
            (soundTo_eraseK hkne
              (soundTo_setK hkkne (hnew _ (fun _ hp => hp)) hcur))
        · rw [if_neg hgf]
          exact compressGo_sound base hwf₀ rest _ hsub'
            (soundTo_eraseK hkne
              (soundTo_setK hkkne
                (hnew _ (compress_pathw (.obj ges) hgwf)) hcur))
  | base, hwf₀, .cons k (.obj (.cons k1 (.bl b) .nil)) rest, cur, hsub, hcur => by
      have hsub' : ∀ k' u', EntryMem k' u' rest → EntryMem k' u' base :=
        fun k' u' hm => hsub k' u' (EntryMem.tail _ _ hm)
      have hmem : EntryMem k (.obj (.cons k1 (.bl b) .nil)) base :=
        hsub k _ (EntryMem.head ..)
      have hkwf := wfe_mem_obj _ k base hwf₀ hmem
      have hues : WFE (.cons k1 (.bl b) .nil) := by
        cases hkwf.2 with | obj h => exact h
      have hkne : k ≠ flushK := fun hh => by
        have h5 := hkwf.1
        rw [hh, flushK_length] at h5
        omega
      have hkkne : k ++ k1 ≠ flushK := fun hh => by
        have h5 : (k ++ k1).length = 5 := by rw [hh, flushK_length]
        rw [List.length_append, hkwf.1] at h5
        rcases wfe_key_len k1 _ _ hues (EntryMem.head ..) with h1 | h1 <;> omega
      rw [compressGo]
      by_cases hfl : truthy (entLookup (.cons k1 (.bl b) .nil) flushK) = true
      · rw [if_pos hfl]
        exact compressGo_sound base hwf₀ rest cur hsub' hcur
      · rw [if_neg hfl]
        exact compressGo_sound base hwf₀ rest _ hsub'
          (soundTo_eraseK hkne
            (soundTo_setK hkkne (fun w' hp => by cases hp) hcur))
  | base, hwf₀, .cons k (.obj (.cons k1 (.nm n) .nil)) rest, cur, hsub, hcur => by
      have hsub' : ∀ k' u', EntryMem k' u' rest → EntryMem k' u' base :=
        fun k' u' hm => hsub k' u' (EntryMem.tail _ _ hm)
      have hmem : EntryMem k (.obj (.cons k1 (.nm n) .nil)) base :=
        hsub k _ (EntryMem.head ..)
      have hkwf := wfe_mem_obj _ k base hwf₀ hmem
      have hues : WFE (.cons k1 (.nm n) .nil) := by
        cases hkwf.2 with | obj h => exact h
      have hkne : k ≠ flushK := fun hh => by
        have h5 := hkwf.1
        rw [hh, flushK_length] at h5
        omega
      have hkkne : k ++ k1 ≠ flushK := fun hh => by
        have h5 : (k ++ k1).length = 5 := by rw [hh, flushK_length]
        rw [List.length_append, hkwf.1] at h5
        rcases wfe_key_len k1 _ _ hues (EntryMem.head ..) with h1 | h1 <;> omega
      rw [compressGo]
      by_cases hfl : truthy (entLookup (.cons k1 (.nm n) .nil) flushK) = true
      · rw [if_pos hfl]
        exact compressGo_sound base hwf₀ rest cur hsub' hcur
      · rw [if_neg hfl]
        exact compressGo_sound base hwf₀ rest _ hsub'
          (soundTo_eraseK hkne
            (soundTo_setK hkkne (fun w' hp => by cases hp) hcur))
  | base, hwf₀, .cons k (.obj (.cons k1 g (.cons k2 g2 tl))) rest, cur, hsub, hcur => by
      have hsub' : ∀ k' u', EntryMem k' u' rest → EntryMem k' u' base :=
        fun k' u' hm => hsub k' u' (EntryMem.tail _ _ hm)
      have hmem : EntryMem k (.obj (.cons k1 g (.cons k2 g2 tl))) base :=
        hsub k _ (EntryMem.head ..)
      have hkwf := wfe_mem_obj _ k base hwf₀ hmem
      have hkne : k ≠ flushK := fun hh => by
        have h5 := hkwf.1
        rw [hh, flushK_length] at h5
        omega
      rw [compressGo]
      by_cases hfl : truthy (entLookup (.cons k1 g (.cons k2 g2 tl)) flushK) = true
      · rw [if_pos hfl]
        exact compressGo_sound base hwf₀ rest cur hsub' hcur
      · rw [if_neg hfl]
        refine compressGo_sound base hwf₀ rest _ hsub' (soundTo_setK hkne ?_ hcur)
        intro w' hp
        exact PathW.step hmem (compress_pathw _ hkwf.2 w' hp)
end


/-! ### Insertion: well-formedness and producible words -/


theorem wfe_setK {key : List Char} {val : JVal}
    (hval : (key.length = 1 ∧ WFV val) ∨ ((key = flushK ∨ key = indexK) ∧ isPrim val = true)) :
    ∀ (es : Entries), WFE es → WFE (setK es key val)
  | .nil => fun _ => by
      rw [setK]
      rcases hval with ⟨h1, h2⟩ | ⟨h1, h2⟩
      · exact WFE.consChar h1 h2 WFE.nil
      · exact WFE.consMeta h1 h2 WFE.nil
  | .cons k' v' rest => fun hwf => by
      rw [setK]
      by_cases he : k' = key
      · rw [if_pos he]
        subst he
        have hrest : WFE rest := by
          cases hwf with
          | consChar _ _ h => exact h
          | consMeta _ _ h => exact h
        rcases hval with ⟨h1, h2⟩ | ⟨h1, h2⟩
        · exact WFE.consChar h1 h2 hrest
        · exact WFE.consMeta h1 h2 hrest
      · rw [if_neg he]
        cases hwf with
        | consChar h1 h2 h3 => exact WFE.consChar h1 h2 (wfe_setK hval rest h3)
        | consMeta h1 h2 h3 => exact WFE.consMeta h1 h2 (wfe_setK hval rest h3)

theorem wfe_mem_char (k : List Char) (u : JVal) :
    ∀ (es : Entries), WFE es → EntryMem k u es → k.length = 1 → WFV u
  | .nil => by intro _ hm; cases hm
  | .cons k' v' rest => by
      intro hwf hm hlen
      cases hm with
      | head =>
          cases hwf with
          | consChar _ h2 _ => exact h2
          | consMeta h1 _ _ =>
              exfalso
              rcases h1 with rfl | rfl
              · rw [flushK_length] at hlen; omega
              · rw [indexK_length] at hlen; omega
      | tail _ _ h' =>
          cases hwf with
          | consChar _ _ h3 => exact wfe_mem_char k u rest h3 h' hlen
          | consMeta _ _ h3 => exact wfe_mem_char k u rest h3 h' hlen

theorem wfv_insertGo : ∀ (cs : List Char) (v : JVal) (i : Nat), WFV v → WFV (insertGo cs v i)
  | [], .obj es, i => fun hwf => by
      rw [insertGo]
      have hes : WFE es := by cases hwf with | obj h => exact h
      exact WFV.obj (@wfe_setK indexK (.nm i) (Or.inr ⟨Or.inr rfl, rfl⟩) _
        (@wfe_setK flushK (.bl true) (Or.inr ⟨Or.inl rfl, rfl⟩) es hes))
  | c :: cs, .obj es, i => fun hwf => by
      rw [insertGo]
      have hes : WFE es := by cases hwf with | obj h => exact h
      have hchild : WFV ((entLookup es [c]).getD (.obj .nil)) := by
        cases hl : entLookup es [c] with
        | none => exact WFV.obj WFE.nil
        | some x =>
            simp only [Option.getD]
            exact wfe_mem_char [c] x es hes (entryMem_lookup [c] x es hl) rfl
      exact WFV.obj (@wfe_setK [c] _ (Or.inl ⟨rfl, wfv_insertGo cs _ i hchild⟩) es hes)
  | [], .bl b, i => fun hwf => by rw [insertGo]; exact hwf
  | [], .nm n, i => fun hwf => by rw [insertGo]; exact hwf
  | _ :: _, .bl b, i => fun hwf => by rw [insertGo]; exact hwf
  | _ :: _, .nm n, i => fun hwf => by rw [insertGo]; exact hwf

theorem wfv_buildGo : ∀ (ws : List (List Char)) (v : JVal) (i : Nat),
    WFV v → WFV (buildGo ws v i)
  | [], v, i => fun hwf => by rw [buildGo]; exact hwf
  | x :: ws, v, i => fun hwf => by
      rw [buildGo]
      exact wfv_buildGo ws _ (i + 1) (wfv_insertGo (lowerStr x) v (i + 1) hwf)

theorem pathw_nil_elim {w : List Char} : PathW (.obj .nil) w → False := by
  intro h
  cases h with
  | here hh => rw [entLookup] at hh; exact absurd hh (by rw [truthy]; exact Bool.false_ne_true)
  | step hm _ => cases hm

theorem flushK_ne_single (c : Char) : flushK ≠ [c] := fun hh => by
  have h2 := congrArg List.length hh
  rw [flushK_length] at h2
  simp at h2

/-- A word producible after inserting `cs` was producible before, or is `cs`
itself: `insert` fabricates nothing else. -/

theorem insert_pathw : ∀ (cs : List Char) (v : JVal) (i : Nat) (w : List Char),
    PathW (insertGo cs v i) w → PathW v w ∨ w = cs
  | [], .obj es, i, w => by
      intro hw
      rw [insertGo] at hw
      cases hw with
      | here h => exact Or.inr rfl
      | step hm hp =>
          rcases entryMem_setK _ _ _ _ _ hm with ⟨rfl, rfl⟩ | hm1
          · cases hp
          · rcases entryMem_setK _ _ _ _ _ hm1 with ⟨rfl, rfl⟩ | hm2
            · cases hp
            · exact Or.inl (PathW.step hm2 hp)
  | c :: cs, .obj es, i, w => by
      intro hw
      rw [insertGo] at hw
      cases hw with
      | here h =>
          rw [lookup_setK_ne [c] flushK _ (flushK_ne_single c) es] at h
          exact Or.inl (PathW.here h)
      | step hm hp =>
          rcases entryMem_setK _ _ _ _ _ hm with ⟨rfl, rfl⟩ | hm1
          · rcases insert_pathw cs _ i _ hp with h1 | h1
            · cases hl : entLookup es [c] with
              | none =>
                  rw [hl] at h1
                  simp only [Option.getD] at h1
                  exact absurd h1 (fun hh => pathw_nil_elim hh)
              | some x =>
                  rw [hl] at h1
                  simp only [Option.getD] at h1
                  exact Or.inl (PathW.step (entryMem_lookup [c] x es hl) h1)
            · right
              rw [h1]
              rfl
          · exact Or.inl (PathW.step hm1 hp)
  | [], .bl b, i, w => by intro hw; rw [insertGo] at hw; exact Or.inl hw
  | [], .nm n, i, w => by intro hw; rw [insertGo] at hw; exact Or.inl hw
  | _ :: _, .bl b, i, w => by intro hw; rw [insertGo] at hw; exact Or.inl hw
  | _ :: _, .nm n, i, w => by intro hw; rw [insertGo] at hw; exact Or.inl hw

theorem build_pathw : ∀ (ws : List (List Char)) (v : JVal) (i : Nat) (w : List Char),
    PathW (buildGo ws v i) w → PathW v w ∨ w ∈ ws.map lowerStr
  | [], v, i, w => by intro hw; rw [buildGo] at hw; exact Or.inl hw
  | x :: ws, v, i, w => by
      intro hw
      rw [buildGo] at hw
      rcases build_pathw ws _ (i + 1) w hw with h1 | h1
      · rcases insert_pathw (lowerStr x) v (i + 1) w h1 with h2 | h2
        · exact Or.inl h2
        · right
          rw [List.map_cons, h2]
          exact List.mem_cons_self ..
      · right
        rw [List.map_cons]
        exact List.mem_cons_of_mem _ h1

/-! ### findWords: every enumerated word is a producible word -/


mutual
theorem findWords_mem : ∀ (v : JVal) (word : List Char) (maxWord : Nat)
    (lst : List (List Char)) (x : List Char),
    x ∈ findWords v word maxWord lst → x ∈ lst ∨ ∃ w, PathW v w ∧ x = word ++ w
  | .obj es, word, maxWord, lst, x => by
      intro hx
      rw [findWords] at hx
      by_cases hlen : maxWord ≤ lst.length
      · rw [if_pos hlen] at hx; exact Or.inl hx
      · rw [if_neg hlen] at hx
        rcases findWordsGo_mem es word maxWord _ x hx with h1 | ⟨k, u, w, hm, hp, he⟩
        · by_cases hf : flushy (JVal.obj es) = true
          · rw [if_pos hf] at h1
            rcases List.mem_append.1 h1 with h2 | h2
            · exact Or.inl h2
            · right
              refine ⟨[], PathW.here ?_, by simpa using List.mem_singleton.1 h2⟩
              rw [flushy, getProp] at hf
              exact hf
          · rw [if_neg hf] at h1
            exact Or.inl h1
        · right
          exact ⟨k ++ w, PathW.step hm hp, by rw [he, List.append_assoc]⟩
  | .bl b, word, maxWord, lst, x => by
      intro hx
      rw [findWords] at hx
      by_cases hlen : maxWord ≤ lst.length
      · rw [if_pos hlen] at hx; exact Or.inl hx
      · rw [if_neg hlen, flushy_bl, if_neg Bool.false_ne_true] at hx
        exact Or.inl hx
  | .nm n, word, maxWord, lst, x => by
      intro hx
      rw [findWords] at hx
      by_cases hlen : maxWord ≤ lst.length
      · rw [if_pos hlen] at hx; exact Or.inl hx
      · rw [if_neg hlen, flushy_nm, if_neg Bool.false_ne_true] at hx
        exact Or.inl hx

theorem findWordsGo_mem : ∀ (es : Entries) (word : List Char) (maxWord : Nat)
    (lst : List (List Char)) (x : List Char),
    x ∈ findWordsGo es word maxWord lst →
      x ∈ lst ∨ ∃ k u w, EntryMem k u es ∧ PathW u w ∧ x = word ++ k ++ w
  | .nil, word, maxWord, lst, x => by
      intro hx
      rw [findWordsGo] at hx
      exact Or.inl hx
  | .cons k u rest, word, maxWord, lst, x => by
      intro hx
      rw [findWordsGo] at hx
      rcases findWordsGo_mem rest word maxWord _ x hx with h1 | ⟨k', u', w', hm, hp, he⟩
      · rcases findWords_mem u (word ++ k) maxWord lst x h1 with h2 | ⟨w', hp, he⟩
        · exact Or.inl h2
        · right
          exact ⟨k, u, w', EntryMem.head .., hp, by rw [he, List.append_assoc]⟩
      · right
        exact ⟨k', u', w', EntryMem.tail _ _ hm, hp, he⟩
end


mutual
theorem findWords_len : ∀ (v : JVal) (word : List Char) (maxWord : Nat)
    (lst : List (List Char)), lst.length ≤ maxWord →
    (findWords v word maxWord lst).length ≤ maxWord
  | .obj es, word, maxWord, lst => fun h => by
      rw [findWords]
      by_cases hlen : maxWord ≤ lst.length
      · rw [if_pos hlen]; exact h
      · rw [if_neg hlen]
        apply findWordsGo_len
        by_cases hf : flushy (JVal.obj es) = true
        · rw [if_pos hf]
          rw [List.length_append]
          simp only [List.length_singleton]
          omega
        · rw [if_neg hf]; exact h
  | .bl b, word, maxWord, lst => fun h => by
      rw [findWords]
      by_cases hlen : maxWord ≤ lst.length
      · rw [if_pos hlen]; exact h
      · rw [if_neg hlen, flushy_bl, if_neg Bool.false_ne_true]
        exact h
  | .nm n, word, maxWord, lst => fun h => by
      rw [findWords]
      by_cases hlen : maxWord ≤ lst.length
      · rw [if_pos hlen]; exact h
      · rw [if_neg hlen, flushy_nm, if_neg Bool.false_ne_true]
        exact h

theorem findWordsGo_len : ∀ (es : Entries) (word : List Char) (maxWord : Nat)
    (lst : List (List Char)), lst.length ≤ maxWord →
    (findWordsGo es word maxWord lst).length ≤ maxWord
  | .nil, word, maxWord, lst => fun h => by rw [findWordsGo]; exact h
  | .cons k u rest, word, maxWord, lst => fun h => by
      rw [findWordsGo]
      exact findWordsGo_len rest word maxWord _ (findWords_len u (word ++ k) maxWord lst h)
end


/-! ### The descent of complete -/


theorem findMatchKey_mem (seg k : List Char) (u : JVal) :
    ∀ (es : Entries), findMatchKey es seg = some (k, u) →
      EntryMem k u es ∧ (pfxB seg k || pfxB k seg) = true
  | .nil => by intro h; rw [findMatchKey] at h; cases h
  | .cons k' v' rest => by
      intro h
      rw [findMatchKey] at h
      by_cases hc : (pfxB seg k' || pfxB k' seg) = true
      · rw [if_pos hc] at h
        cases h
        exact ⟨EntryMem.head .., hc⟩
      · rw [if_neg hc] at h
        rcases findMatchKey_mem seg k u rest h with ⟨h1, h2⟩
        exact ⟨EntryMem.tail _ _ h1, h2⟩

/-- A successful descent lands on a node reached by edges spelling `t`, where
`t` extends the queried (lowercased) remaining input and `matchedPrefix` is
`acc ++ t`. -/

theorem descend_sound : ∀ (fuel : Nat) (v : JVal) (rem acc : List Char)
    (nd : JVal) (m : List Char),
    descend fuel v rem acc = some (nd, m) →
    ∃ t, m = acc ++ t ∧ EdgePath v t nd ∧ pfxB rem t = true
  | fuel, v, [], acc, nd, m => by
      intro h
      rw [descend] at h
      cases h
      exact ⟨[], by simp, EdgePath.refl v, rfl⟩
  | 0, v, c :: cs, acc, nd, m => by
      intro h
      rw [descend] at h
      exact Option.noConfusion h
  | fuel + 1, .obj es, c :: cs, acc, nd, m => by
      intro h
      rw [descend] at h
      cases hk : findMatchKey es (c :: cs) with
      | none =>
          rw [hk] at h
          exact Option.noConfusion h
      | some kv =>
          rcases kv with ⟨key, child⟩
          cases key with
          | nil =>
              rw [hk] at h
              exact Option.noConfusion h
          | cons kc ks =>
              rw [hk] at h
              rcases descend_sound fuel child _ _ nd m h with ⟨t', rfl, hpath, hpfx⟩
              rcases findMatchKey_mem (c :: cs) (kc :: ks) child es hk with ⟨hmem, hcond⟩
              refine ⟨(kc :: ks) ++ t', by rw [List.append_assoc],
                EdgePath.step hmem hpath, ?_⟩
              rcases Bool.or_eq_true_iff.1 hcond with h1 | h1
              · exact pfxB_append_right t' h1
              · have h2 := pfxB_append_same (a := (c :: cs).drop (kc :: ks).length)
                  (b := t') (kc :: ks) hpfx
                rw [pfxB_recover h1] at h2
                exact h2
  | fuel + 1, .bl b, c :: cs, acc, nd, m => by
      intro h
      rw [descend] at h
      exact Option.noConfusion h
  | fuel + 1, .nm n, c :: cs, acc, nd, m => by
      intro h
      rw [descend] at h
      exact Option.noConfusion h

/-- C10: every word returned by the trie's `complete` (the enumerated list;
the single-word mode returns its head) is a lowercased word of the input
vocabulary, starts with the lowercased prefix, and the list never exceeds
`maxWord` entries. -/

theorem c10_complete_sound (input : List (List Char)) (p : List Char) (maxWord : Nat) :
    (completeCore (trieNew input) p maxWord).length ≤ maxWord ∧
    ∀ x ∈ completeCore (trieNew input) p maxWord,
      x ∈ input.map lowerStr ∧ pfxB (lowerStr p) x = true := by
  constructor
  · rw [completeCore]
    by_cases hp : p = []
    · rw [if_pos hp]; simp
    · rw [if_neg hp]
      cases hd : descend (lowerStr p).length (trieNew input) (lowerStr p) [] with
      | none => simp
      | some pr =>
          rcases pr with ⟨nd, m⟩
          exact findWords_len nd m maxWord [] (by simp)
  · intro x hx
    rw [completeCore] at hx
    by_cases hp : p = []
    · rw [if_pos hp] at hx; cases hx
    · rw [if_neg hp] at hx
      cases hd : descend (lowerStr p).length (trieNew input) (lowerStr p) [] with
      | none => rw [hd] at hx; cases hx
      | some pr =>
          rcases pr with ⟨nd, m⟩
          rw [hd] at hx
          rcases findWords_mem nd m maxWord [] x hx with h1 | ⟨w, hpw, rfl⟩
          · cases h1
          · rcases descend_sound _ _ _ _ _ _ hd with ⟨t, hm, hpath, hpfx⟩
            simp only [List.nil_append] at hm
            subst hm
            have hx_path : PathW (trieNew input) (m ++ w) := edgePath_pathW hpath hpw
            rw [trieNew] at hx_path
            have hwfb : WFV (buildGo input (.obj .nil) 0) :=
              wfv_buildGo input _ 0 (WFV.obj WFE.nil)
            have h2 : PathW (buildGo input (.obj .nil) 0) (m ++ w) :=
              compress_pathw _ hwfb _ hx_path
            rcases build_pathw input _ 0 _ h2 with h3 | h3
            · exact absurd h3 (fun hh => pathw_nil_elim hh)
            · exact ⟨h3, pfxB_append_right w hpfx⟩

/-- Witness for C10 at the trie built from `["car","cat"]` with prefix
`"ca"`: the returned word `"car"` is an inserted word starting with the
prefix, and the cap 2 holds. -/

theorem c10_complete_sound_witness :
    (completeCore (trieNew ["car".data, "cat".data]) "ca".data 2).length ≤ 2 ∧
    ("car".data ∈ ["car".data, "cat".data].map lowerStr ∧
      pfxB (lowerStr "ca".data) "car".data = true) :=
  ⟨(c10_complete_sound ["car".data, "cat".data] "ca".data 2).1,
   (c10_complete_sound ["car".data, "cat".data] "ca".data 2).2 "car".data (by decide)⟩


/-- C4: the claim says that after the constructor's compression no reachable
non-word-end node has exactly one child.  Counterexample: the trie built from
the single word `"abc"` compresses to root → `"ab"` → node `{c: wordEnd}`,
whose middle node is a reachable non-word-end node with exactly one child. -/

theorem c4_lone_child_after_compress :
    trieNew ["abc".data] =
      .obj (.cons "ab".data (.obj (.cons "c".data (wordEnd 1) .nil)) .nil) ∧
    hasLoneInternal (trieNew ["abc".data]) = true := by
  decide

/-! ### Integer window sizes: the ℚ loop agrees with the Nat twin -/


theorem jsToInt_intCast (m : ℤ) : jsToInt ((m : ℤ) : ℚ) = m := by
  rw [jsToInt]
  by_cases h : ((m : ℤ) : ℚ) < 0
  · rw [if_pos h, Int.ceil_intCast]
  · rw [if_neg h, Int.floor_intCast]

theorem tabulateStep_nat (tokens : List (List Char)) (n : Nat)
    (m : List (List Char × Nat)) (i : Nat) :
    tabulateStep tokens (n : ℚ) m i = tabulateStepN tokens n m i := by
  have h1 : jsToInt ((i : ℚ) + (n : ℚ) - 1) = (i : ℤ) + n - 1 := by
    have : ((i : ℚ) + (n : ℚ) - 1) = (((i : ℤ) + n - 1 : ℤ) : ℚ) := by push_cast; ring
    rw [this, jsToInt_intCast]
  have h2 : jsToInt ((i : ℚ) + (n : ℚ)) = (i : ℤ) + n := by
    have : ((i : ℚ) + (n : ℚ)) = (((i : ℤ) + n : ℤ) : ℚ) := by push_cast; ring
    rw [this, jsToInt_intCast]
  rw [tabulateStep, tabulateStepN, h1, h2]

theorem iterCount_nat (len n : Nat) : iterCount len (n : ℚ) = len + 1 - n := by
  rw [iterCount]
  have h1 : ((len : ℚ) - (n : ℚ)) = (((len : ℤ) - n : ℤ) : ℚ) := by push_cast; ring
  rw [h1, Int.floor_intCast]
  omega

theorem tabulate_natCast (tokens : List (List Char)) (n : Nat) :
    tabulate tokens (n : ℚ) = tabulateN tokens n := by
  rw [tabulate, tabulateN, iterCount_nat]
  congr 1
  funext m i
  exact tabulateStep_nat tokens n m i

/-- C5 counterexample: the claim says construction succeeds iff the input is
textual (source text or token array) and the size is a positive integer.  A
token array is rejected by `tokenize`'s `typeof text !== 'string'` check, and
the non-integer size 2.5 passes the `typeof size !== 'number' || size <= 0`
check, so construction succeeds with it. -/

theorem c5_claim_counterexample :
    constructionOk (ngramNew (.arr ["a".data, "b".data]) 2) = false ∧
    constructionOk (ngramNew (.str "a b".data) (5 / 2)) = true := by
  constructor
  · rfl
  · rw [ngramNew]
    simp only [tokenizeE]
    rw [if_neg (by norm_num)]
    rfl

/-- C5 amended: construction succeeds if and only if the input is a string
and the window size is a positive number — integer or not; token-array input
fails with an invalid-argument error and no partial construction occurs (the
validation precedes all model building). -/

theorem c5_construction_succeeds_iff (input : JSInput) (size : ℚ) :
    constructionOk (ngramNew input size) = true ↔
      (∃ s, input = JSInput.str s) ∧ 0 < size := by
  cases input with
  | arr l => simp [ngramNew, tokenizeE, constructionOk]
  | str s =>
      rw [ngramNew]
      simp only [tokenizeE]
      by_cases h : size ≤ 0
      · rw [if_pos h]
        constructor
        · intro hh
          exact absurd hh (by rw [constructionOk]; exact Bool.false_ne_true)
        · rintro ⟨-, hpos⟩
          exact absurd hpos (not_lt.2 h)
      · rw [if_neg h]
        exact iff_of_true rfl ⟨⟨s, rfl⟩, not_le.1 h⟩

theorem tabulateStepN_eq (tokens : List (List Char)) (n : Nat)
    (m : List (List Char × Nat)) (i : Nat) :
    tabulateStepN tokens n m i =
      if okWindow tokens n i then incrWindow tokens n m i else m := by
  by_cases h : (jsSlice tokens (i : ℤ) ((i : ℤ) + n - 1)).any eosB = true
  · simp [tabulateStepN, okWindow, incrWindow, h]
  · simp only [Bool.not_eq_true] at h
    simp [tabulateStepN, okWindow, incrWindow, h]

theorem foldl_filter {α β : Type} (ok : β → Bool) (step : α → β → α) :
    ∀ (l : List β) (init : α),
      l.foldl (fun m i => if ok i then step m i else m) init =
        (l.filter ok).foldl step init
  | [], _ => rfl
  | b :: l, init => by
      rw [List.foldl_cons, List.filter_cons]
      by_cases h : ok b = true
      · rw [if_pos h, if_pos h, List.foldl_cons]
        exact foldl_filter ok step l (step init b)
      · rw [if_neg h, if_neg h]
        exact foldl_filter ok step l init

/-- C7: `tabulate` counts exactly the windows none of whose first `n-1`
tokens is sentence-ending (the window's own final token may be), and on
`"hi there. hi friend."` with size 2 the window `(there., hi)` is skipped,
yielding the table `{"hi there.": 0.5, "hi friend.": 0.5}`. -/

theorem c7_tabulate_skips_iff :
    (∀ (tokens : List (List Char)) (n : Nat),
      tabulate tokens (n : ℚ) =
        ((List.range (tokens.length + 1 - n)).filter (okWindow tokens n)).foldl
          (incrWindow tokens n) []) ∧
    probabilities (tabulate (splitWs "hi there. hi friend.".data) (2 : ℚ)) =
      [("hi there.".data, 1 / 2), ("hi friend.".data, 1 / 2)] := by
  constructor
  · intro tokens n
    rw [tabulate_natCast, tabulateN]
    have hstep : tabulateStepN tokens n =
        fun m i => if okWindow tokens n i then incrWindow tokens n m i else m := by
      funext m i
      exact tabulateStepN_eq tokens n m i
    rw [hstep, foldl_filter]
  · rw [show (2 : ℚ) = ((2 : Nat) : ℚ) by norm_num, tabulate_natCast]
    have hc : tabulateN (splitWs "hi there. hi friend.".data) 2 =
        [("hi there.".data, 1), ("hi friend.".data, 1)] := by decide
    rw [hc, probabilities]
    norm_num

/-! ### C6: the scan picks the first-encountered globally best match -/


theorem firstMax_cons (a : List Char × ℚ) (l : List (List Char × ℚ)) :
    firstMax (a :: l) =
      match firstMax l with
      | none => some a
      | some e' => if a.2 < e'.2 then some e' else some a := by
  rw [firstMax]

theorem firstMax_cons_none (a : List Char × ℚ) {l : List (List Char × ℚ)}
    (h : firstMax l = none) : firstMax (a :: l) = some a := by
  rw [firstMax_cons, h]

theorem firstMax_cons_lt (a : List Char × ℚ) {l : List (List Char × ℚ)}
    {e' : List Char × ℚ} (h : firstMax l = some e') (hlt : a.2 < e'.2) :
    firstMax (a :: l) = some e' := by
  rw [firstMax_cons, h]
  exact if_pos hlt

theorem firstMax_cons_ge (a : List Char × ℚ) {l : List (List Char × ℚ)}
    {e' : List Char × ℚ} (h : firstMax l = some e') (hge : ¬a.2 < e'.2) :
    firstMax (a :: l) = some a := by
  rw [firstMax_cons, h]
  exact if_neg hge

theorem firstMax_none : ∀ {l : List (List Char × ℚ)}, firstMax l = none → l = []
  | [], _ => rfl
  | a :: l, h => by
      rw [firstMax_cons] at h
      cases hr : firstMax l with
      | none =>
          rw [hr] at h
          exact Option.noConfusion (show some a = none from h)
      | some e' =>
          rw [hr] at h
          have h2 : (if a.2 < e'.2 then some e' else some a) = none := h
          by_cases hae : a.2 < e'.2
          · rw [if_pos hae] at h2
            exact Option.noConfusion h2
          · rw [if_neg hae] at h2
            exact Option.noConfusion h2

theorem firstMax_mem : ∀ {l : List (List Char × ℚ)} {e : List Char × ℚ},
    firstMax l = some e → e ∈ l
  | [], _, h => by rw [firstMax] at h; exact Option.noConfusion h
  | a :: l, e, h => by
      rw [firstMax_cons] at h
      cases hr : firstMax l with
      | none =>
          rw [hr] at h
          have h2 : some a = some e := h
          injection h2 with h2
          exact h2 ▸ List.mem_cons_self a l
      | some e' =>
          rw [hr] at h
          have h2 : (if a.2 < e'.2 then some e' else some a) = some e := h
          by_cases hae : a.2 < e'.2
          · rw [if_pos hae] at h2
            injection h2 with h2
            exact h2 ▸ List.mem_cons_of_mem a (firstMax_mem hr)
          · rw [if_neg hae] at h2
            injection h2 with h2
            exact h2 ▸ List.mem_cons_self a l

theorem firstMax_isMax : ∀ {l : List (List Char × ℚ)} {e : List Char × ℚ},
    firstMax l = some e → ∀ x ∈ l, x.2 ≤ e.2
  | [], _, h => by rw [firstMax] at h; exact Option.noConfusion h
  | a :: l, e, h => by
      intro x hx
      rw [firstMax_cons] at h
      cases hr : firstMax l with
      | none =>
          rw [hr] at h
          have h2 : some a = some e := h
          injection h2 with h2
          have hl : l = [] := firstMax_none hr
          rw [hl] at hx
          rcases List.mem_cons.1 hx with hxa | hxl
          · subst hxa
            exact le_of_eq (congrArg Prod.snd h2)
          · exact absurd hxl (List.not_mem_nil x)
      | some e' =>
          rw [hr] at h
          have h2 : (if a.2 < e'.2 then some e' else some a) = some e := h
          by_cases hae : a.2 < e'.2
          · rw [if_pos hae] at h2
            injection h2 with h2
            subst h2
            rcases List.mem_cons.1 hx with hxa | hxl
            · subst hxa
              exact le_of_lt hae
            · exact firstMax_isMax hr x hxl
          · rw [if_neg hae] at h2
            injection h2 with h2
            subst h2
            rcases List.mem_cons.1 hx with hxa | hxl
            · subst hxa
              exact le_refl _
            · exact le_trans (firstMax_isMax hr x hxl) (le_of_not_lt hae)

theorem firstMax_cons_max (a : List Char × ℚ) {l : List (List Char × ℚ)}
    (h : ∀ x ∈ l, x.2 ≤ a.2) : firstMax (a :: l) = some a := by
  rw [firstMax_cons]
  cases hr : firstMax l with
  | none => rfl
  | some e' => exact if_neg (not_lt.2 (h e' (firstMax_mem hr)))

/-- Raising the strict threshold from `mp` to `p` does not change the first
maximal entry, as long as that entry still clears the higher bar. -/

theorem firstMax_filter_up {mp p : ℚ} (hmp : mp ≤ p) :
    ∀ (l : List (List Char × ℚ)) (e : List Char × ℚ),
      firstMax (l.filter (fun x => decide (mp < x.2))) = some e → p < e.2 →
        firstMax (l.filter (fun x => decide (p < x.2))) = some e
  | [], _, h, _ => by
      rw [List.filter_nil, firstMax] at h
      exact Option.noConfusion h
  | a :: l, e, h, hpe => by
      rw [List.filter_cons] at h
      rw [List.filter_cons]
      by_cases ha : mp < a.2
      · rw [if_pos (decide_eq_true ha)] at h
        cases hr : firstMax (l.filter (fun x => decide (mp < x.2))) with
        | none =>
            rw [firstMax_cons_none a hr] at h
            injection h with h
            subst h
            have hlp : l.filter (fun x => decide (p < x.2)) = [] := by
              rw [List.eq_nil_iff_forall_not_mem]
              intro x hx
              rcases List.mem_filter.1 hx with ⟨hxl, hxp⟩
              have hxm : x ∈ l.filter (fun x => decide (mp < x.2)) :=
                List.mem_filter.2
                  ⟨hxl, decide_eq_true (lt_of_le_of_lt hmp (of_decide_eq_true hxp))⟩
              rw [firstMax_none hr] at hxm
              exact List.not_mem_nil x hxm
            rw [if_pos (decide_eq_true hpe), hlp]
            exact firstMax_cons_none a rfl
        | some e' =>
            by_cases hae : a.2 < e'.2
            · rw [firstMax_cons_lt a hr hae] at h
              injection h with h
              subst h
              have hrec := firstMax_filter_up hmp l e' hr hpe
              by_cases hap : p < a.2
              · rw [if_pos (decide_eq_true hap)]
                exact firstMax_cons_lt a hrec hae
              · rw [if_neg (by simp only [decide_eq_true_iff]; exact hap)]
                exact hrec
            · rw [firstMax_cons_ge a hr hae] at h
              injection h with h
              subst h
              rw [if_pos (decide_eq_true hpe)]
              apply firstMax_cons_max a
              intro x hx
              rcases List.mem_filter.1 hx with ⟨hxl, hxp⟩
              have hxm : x ∈ l.filter (fun x => decide (mp < x.2)) :=
                List.mem_filter.2
                  ⟨hxl, decide_eq_true (lt_of_le_of_lt hmp (of_decide_eq_true hxp))⟩
              exact le_trans (firstMax_isMax hr x hxm) (le_of_not_lt hae)
      · rw [if_neg (by simp only [decide_eq_true_iff]; exact ha)] at h
        rw [if_neg (by
          simp only [decide_eq_true_iff]
          exact fun hc => ha (lt_of_le_of_lt hmp hc))]
        exact firstMax_filter_up hmp l e h hpe

/-- What the scan computes, in closed form: provided every tabulated
probability is at most 1 (so the break on probability 1 never hides a later
strictly better entry), `sngGo` returns the last token of the first entry of
maximal probability among the matching entries above the running threshold
`mp`, and the fallback `w` when there is none. -/

theorem sngGo_firstMax (seq : List Char) :
    ∀ (model : List (List Char × ℚ)) (mp : ℚ) (w : List Char),
      (∀ e ∈ model, e.2 ≤ 1) →
      sngGo seq model mp w =
        (match firstMax ((model.filter (fun e => matchesB seq e.1)).filter
            (fun e => decide (mp < e.2))) with
         | none => w
         | some e => lastTok e.1)
  | [], mp, w, _ => by
      rw [sngGo, List.filter_nil, List.filter_nil, firstMax]
  | (g, p) :: rest, mp, w, hle => by
      have hrest : ∀ e ∈ rest, e.2 ≤ 1 :=
        fun e he => hle e (List.mem_cons_of_mem _ he)
      rw [sngGo]
      by_cases hm : matchesB seq g = true
      · by_cases h1 : p ≤ mp
        · rw [if_pos h1, List.filter_cons,
            if_pos (show matchesB seq (g, p).1 = true from hm), List.filter_cons,
            if_neg (show ¬decide (mp < (g, p).2) = true from
              fun hc => absurd (of_decide_eq_true hc) (not_lt.2 h1))]
          exact sngGo_firstMax seq rest mp w hrest
        · rw [if_neg h1, if_pos hm, List.filter_cons,
            if_pos (show matchesB seq (g, p).1 = true from hm), List.filter_cons,
            if_pos (show decide (mp < (g, p).2) = true from
              decide_eq_true (not_le.1 h1))]
          by_cases hq : p = 1
          · rw [if_pos hq]
            have hmax : ∀ x ∈ List.filter (fun e => decide (mp < e.2))
                (List.filter (fun e => matchesB seq e.1) rest), x.2 ≤ (g, p).2 := by
              intro x hx
              rcases List.mem_filter.1 hx with ⟨hx1, _⟩
              rcases List.mem_filter.1 hx1 with ⟨hx2, _⟩
              rw [hq]
              exact hrest x hx2
            rw [firstMax_cons_max (g, p) hmax]
          · rw [if_neg hq, sngGo_firstMax seq rest p (lastTok g) hrest]
            cases hr : firstMax (List.filter (fun e => decide (mp < e.2))
                (List.filter (fun e => matchesB seq e.1) rest)) with
            | none =>
                have hpnil : List.filter (fun e => decide (p < e.2))
                    (List.filter (fun e => matchesB seq e.1) rest) = [] := by
                  rw [List.eq_nil_iff_forall_not_mem]
                  intro x hx
                  rcases List.mem_filter.1 hx with ⟨hx1, hx2⟩
                  have hxm : x ∈ List.filter (fun e => decide (mp < e.2))
                      (List.filter (fun e => matchesB seq e.1) rest) :=
                    List.mem_filter.2 ⟨hx1, decide_eq_true
                      (lt_trans (not_le.1 h1) (of_decide_eq_true hx2))⟩
                  rw [firstMax_none hr] at hxm
                  exact List.not_mem_nil x hxm
                rw [firstMax_cons_none (g, p) hr, hpnil, firstMax]
            | some e' =>
                by_cases he' : p < e'.2
                · rw [firstMax_cons_lt (g, p) hr he',
                    firstMax_filter_up (le_of_lt (not_le.1 h1)) _ e' hr he']
                · have hpnil : List.filter (fun e => decide (p < e.2))
                      (List.filter (fun e => matchesB seq e.1) rest) = [] := by
                    rw [List.eq_nil_iff_forall_not_mem]
                    intro x hx
                    rcases List.mem_filter.1 hx with ⟨hx1, hx2⟩
                    have hxm : x ∈ List.filter (fun e => decide (mp < e.2))
                        (List.filter (fun e => matchesB seq e.1) rest) :=
                      List.mem_filter.2 ⟨hx1, decide_eq_true
                        (lt_trans (not_le.1 h1) (of_decide_eq_true hx2))⟩
                    have hle' := firstMax_isMax hr x hxm
                    exact absurd (of_decide_eq_true hx2)
                      (not_lt.2 (le_trans hle' (le_of_not_lt he')))
                  rw [firstMax_cons_ge (g, p) hr he', hpnil, firstMax]
      · by_cases h1 : p ≤ mp
        · rw [if_pos h1, List.filter_cons,
            if_neg (show ¬matchesB seq (g, p).1 = true from hm)]
          exact sngGo_firstMax seq rest mp w hrest
        · rw [if_neg h1, if_neg hm, List.filter_cons,
            if_neg (show ¬matchesB seq (g, p).1 = true from hm)]
          exact sngGo_firstMax seq rest mp w hrest

/-- C6: `suggestNextWord` returns the last token of the first-encountered
entry of globally maximal probability among the entries whose leading tokens
case-insensitively suffix-match the sequence (the empty string when none
matches), provided every probability is positive and at most 1; and for
size 2 over tokens `a b a c a b a c` the table is
`{"a b": 2/7, "b a": 2/7, "a c": 2/7, "c a": 1/7}` in first-encounter order,
the probabilities sum to 1, and `suggestNextWord("a")` returns `"b"`: the
scan skips candidates whose probability does not strictly exceed the best
accepted so far, so the first-encountered n-gram of the maximal probability
wins the tie. -/

theorem c6_suggest_first_max :
    (∀ (model : List (List Char × ℚ)) (seq : List Char),
      (∀ e ∈ model, 0 < e.2 ∧ e.2 ≤ 1) →
      suggestNextWord model seq false =
        (match firstMax (model.filter (fun e => matchesB seq e.1)) with
         | none => []
         | some e => lastTok e.1)) ∧
    probabilities (tabulate (splitWs "a b a c a b a c".data) (2 : ℚ)) =
      [("a b".data, 2 / 7), ("b a".data, 2 / 7), ("a c".data, 2 / 7),
        ("c a".data, 1 / 7)] ∧
    ((probabilities (tabulate (splitWs "a b a c a b a c".data) (2 : ℚ))).map
      (fun e => e.2)).sum = 1 ∧
    suggestNextWord (probabilities (tabulate (splitWs "a b a c a b a c".data) (2 : ℚ)))
      "a".data false = "b".data := by
  have htab : probabilities (tabulate (splitWs "a b a c a b a c".data) (2 : ℚ)) =
      [("a b".data, 2 / 7), ("b a".data, 2 / 7), ("a c".data, 2 / 7),
        ("c a".data, 1 / 7)] := by
    rw [show (2 : ℚ) = ((2 : Nat) : ℚ) by norm_num, tabulate_natCast]
    have hc : tabulateN (splitWs "a b a c a b a c".data) 2 =
        [("a b".data, 2), ("b a".data, 2), ("a c".data, 2), ("c a".data, 1)] := by
      decide
    rw [hc, probabilities]
    norm_num
  refine ⟨?_, htab, ?_, ?_⟩
  · intro model seq hpr
    rw [suggestNextWord, if_neg Bool.false_ne_true,
      sngGo_firstMax seq model 0 [] (fun e he => (hpr e he).2)]
    have hall : (model.filter (fun e => matchesB seq e.1)).filter
        (fun e => decide ((0 : ℚ) < e.2)) =
        model.filter (fun e => matchesB seq e.1) := by
      rw [List.filter_eq_self]
      intro x hx
      exact decide_eq_true (hpr x (List.mem_filter.1 hx).1).1
    rw [hall]
  · rw [htab]
    simp only [List.map_cons, List.map_nil, List.sum_cons, List.sum_nil]
    norm_num
  · rw [htab, suggestNextWord, if_neg Bool.false_ne_true]
    rw [sngGo, if_neg (by norm_num), if_pos (by decide), if_neg (by norm_num)]
    rw [sngGo, if_pos (by norm_num)]
    rw [sngGo, if_pos (by norm_num)]
    rw [sngGo, if_pos (by norm_num)]
    rw [sngGo]
    decide

/-! ### C8: the cache is not stable under consistent retyping -/


theorem pfxB_nonempty {p c : List Char} (hp : p ≠ []) (h : pfxB p c = true) :
    c ≠ [] := by
  intro hc
  subst hc
  cases p with
  | nil => exact hp rfl
  | cons a as => rw [pfxB] at h; exact Bool.false_ne_true h

theorem exModel_eq : ngramFromText "a b c".data 2 = ⟨2, exModel, []⟩ := by
  have htab : tabulate (splitWs "a b c".data) (2 : ℚ) =
      [("a b".data, 1), ("b c".data, 1)] := by
    rw [show (2 : ℚ) = ((2 : Nat) : ℚ) by norm_num, tabulate_natCast]
    decide
  rw [ngramFromText, htab, probabilities, exModel]
  norm_num

theorem exModel_suggest_a :
    suggestNextWord exModel "a".data true = "b".data := by
  rw [exModel, suggestNextWord, if_pos rfl]
  rw [sngGo, if_neg (by norm_num), if_pos (by decide), if_neg (by norm_num)]
  rw [sngGo, if_pos (by norm_num)]
  rw [sngGo]
  decide

theorem exModel_suggest_b :
    suggestNextWord exModel "b".data true = "c".data := by
  rw [exModel, suggestNextWord, if_pos rfl]
  rw [sngGo, if_neg (by norm_num), if_neg (by decide)]
  rw [sngGo, if_neg (by norm_num), if_pos (by decide), if_neg (by norm_num)]
  rw [sngGo]
  decide

theorem jsToInt_neg_one : jsToInt (-(2 - 1) : ℚ) = -1 := by
  rw [show (-(2 - 1) : ℚ) = ((-1 : ℤ) : ℚ) by norm_num, jsToInt_intCast]

theorem exModel_candidate_a :
    candidate ⟨2, exModel, []⟩ "a".data 1 = "a b".data := by
  show joinSpace (completeLoop 2 exModel 1 (splitWs "a".data) []) = "a b".data
  rw [show splitWs "a".data = ["a".data] from rfl]
  have hseq : lastSeq 2 ["a".data] = "a".data := by
    rw [lastSeq, jsToInt_neg_one]
    decide
  rw [completeLoop, hseq, exModel_suggest_a,
    if_neg (by simp), if_neg (by decide), if_neg (by decide), completeLoop]
  decide

theorem exModel_call_a :
    Ngram.complete ⟨2, exModel, []⟩ "a".data 1 =
      ("a b".data, ⟨2, exModel, "a b".data⟩) := by
  rw [Ngram.complete, if_neg (by decide), exModel_candidate_a]
  have h1 : "a b".data ≠ "a".data ∧
      "a b".data ≠ (⟨2, exModel, []⟩ : NgramState).lookup ∧
      pfxB "a".data "a b".data = true := ⟨by decide, by decide, by decide⟩
  simp only [if_pos h1]
  have h2 : "a b".data ≠ ([] : List Char) ∧ pfxB "a".data "a b".data = true :=
    ⟨by decide, by decide⟩
  simp only [if_pos h2]

theorem exModel_candidate_ab :
    candidate ⟨2, exModel, "a b".data⟩ "a b".data 1 = "a b c".data := by
  show joinSpace (completeLoop 2 exModel 1 (splitWs "a b".data) []) = "a b c".data
  rw [show splitWs "a b".data = ["a".data, "b".data] from rfl]
  have hseq : lastSeq 2 ["a".data, "b".data] = "b".data := by
    rw [lastSeq, jsToInt_neg_one]
    decide
  rw [completeLoop, hseq, exModel_suggest_b,
    if_neg (by simp), if_neg (by decide), if_neg (by decide), completeLoop]
  decide

/-- C8 counterexample: on the model built from `"a b c"` with size 2, the
first call `complete("a")` returns and caches the full suggestion
`S = "a b"`; the subsequent call `complete("a b")` — with a strictly longer
prefix that `S` starts with — recomputes a fresh candidate `"a b c"`, which
passes the cache-update test, overwrites `S`, and is returned: the claim's
`S`-stability fails. -/

theorem c8_claim_counterexample :
    (Ngram.complete (ngramFromText "a b c".data 2) "a".data 1).1 = "a b".data ∧
    (Ngram.complete (ngramFromText "a b c".data 2) "a".data 1).2.lookup = "a b".data ∧
    pfxB "a b".data "a b".data = true ∧
    "a".data.length < "a b".data.length ∧
    (Ngram.complete ((Ngram.complete (ngramFromText "a b c".data 2) "a".data 1).2)
        "a b".data 1).1 = "a b c".data ∧
    "a b c".data ≠ "a b".data := by
  rw [exModel_eq, exModel_call_a]
  refine ⟨rfl, rfl, by decide, by decide, ?_, by decide⟩
  show (Ngram.complete ⟨2, exModel, "a b".data⟩ "a b".data 1).1 = "a b c".data
  rw [Ngram.complete, if_neg (by decide), exModel_candidate_ab]
  have h1 : "a b c".data ≠ "a b".data ∧
      "a b c".data ≠ (⟨2, exModel, "a b".data⟩ : NgramState).lookup ∧
      pfxB "a b".data "a b c".data = true := ⟨by decide, by decide, by decide⟩
  simp only [if_pos h1]
  have h2 : "a b c".data ≠ ([] : List Char) ∧ pfxB "a b".data "a b c".data = true :=
    ⟨by decide, by decide⟩
  simp only [if_pos h2]

/-- C8 amended: with a non-empty cached suggestion `S` that starts with the
current non-empty prefix, `complete` returns the cache as it stands after
the update step: `S` itself unless the freshly computed candidate differs
from both the prefix and `S` and starts with the prefix, in which case the
candidate replaces `S` and is returned instead. -/

theorem c8_cache_return_rule (st : NgramState) (p : List Char) (maxWords : Nat)
    (hp : p ≠ []) (hcache : st.lookup ≠ []) (hpfx : pfxB p st.lookup = true) :
    (Ngram.complete st p maxWords).1 =
      if candidate st p maxWords ≠ p ∧ candidate st p maxWords ≠ st.lookup ∧
          pfxB p (candidate st p maxWords) = true
        then candidate st p maxWords else st.lookup := by
  rw [Ngram.complete, if_neg hp]
  by_cases hc : candidate st p maxWords ≠ p ∧ candidate st p maxWords ≠ st.lookup ∧
      pfxB p (candidate st p maxWords) = true
  · have h2 : candidate st p maxWords ≠ [] ∧ pfxB p (candidate st p maxWords) = true :=
      ⟨pfxB_nonempty hp hc.2.2, hc.2.2⟩
    simp only [if_pos hc, if_pos h2]
  · have h2 : st.lookup ≠ [] ∧ pfxB p st.lookup = true := ⟨hcache, hpfx⟩
    simp only [if_neg hc, if_pos h2]

/-- Witness for the amended C8 at a concrete state: an empty model makes the
fresh candidate equal to the prefix, so the cache is returned unchanged. -/

theorem c8_cache_return_rule_witness :
    (Ngram.complete ⟨2, [], "a b".data⟩ "a".data 1).1 = "a b".data :=
  (c8_cache_return_rule ⟨2, [], "a b".data⟩ "a".data 1 (by decide) (by decide)
    (by decide)).trans (by
      rw [show candidate ⟨2, [], "a b".data⟩ "a".data 1 = "a".data from ?_]
      · rw [if_neg (by simp)]
      · show joinSpace (completeLoop 2 [] 1 (splitWs "a".data) []) = "a".data
        rw [show splitWs "a".data = ["a".data] from rfl]
        have hseq : lastSeq 2 ["a".data] = "a".data := by
          rw [lastSeq, jsToInt_neg_one]
          decide
        rw [completeLoop, hseq]
        rw [if_neg (by simp), if_neg (by decide)]
        · decide
        )

end Models
